import Mathlib

/-!
# A write-once promise and its fan-in `All`

A verification development for `promise.go`.

Two layers are embedded.

* The *call-level* layer treats one call of `Complete`, `CompleteWithError`,
  `Get` or `All` as one step.  A promise is the triple of its data fields; a
  call of `Get` on an incomplete promise, which would wait on the condition
  variable for ever when nobody else runs, has no result (`none`).
* The *goroutine-level* layer splits every call into the statements of the
  source (lock, test, field write, unlock, broadcast, field read), keeps the
  mutex and the notify list of `p.cond` in the state, and interleaves any
  number of calls under an arbitrary schedule.  A call of `All` run alone is
  executed on the same statements, over a memory of promises.

Go's `interface{}` and `error` may be `nil`: a value is an `Option V` and an
error an `Option E`, with `none` for `nil`.
-/

namespace PromiseGo

/-! ## Call-level layer -/

/-- The data fields of the Go struct `Promise`: `v`, `err` and `isComplete`.
The field `cond` (a `*sync.Cond` over a `sync.Mutex`) carries no data; it is
the `locked` / `notify` part of `Shared` in the goroutine-level layer. -/
structure Promise (V E : Type) where
  v : Option V
  err : Option E
  isComplete : Bool
deriving DecidableEq, Repr

variable {V E : Type}

/-- The Go function `NewPromise`: every data field has its zero value. -/
def NewPromise : Promise V E :=
  { v := none, err := none, isComplete := false }

/-- The Go method `complete` (lines 46-57), its critical section taken as one
step: an already complete promise is left alone, otherwise both slots are
written and the flag is set. -/
def Promise.complete (p : Promise V E) (v : Option V) (err : Option E) : Promise V E :=
  if p.isComplete then p
  else { p with v := v, err := err, isComplete := true }

/-- The Go method `Complete`: `p.complete(v, nil)`. -/
def Promise.Complete (p : Promise V E) (v : Option V) : Promise V E :=
  p.complete v none

/-- The Go method `CompleteWithError`: `p.complete(nil, err)`. -/
def Promise.CompleteWithError (p : Promise V E) (err : Option E) : Promise V E :=
  p.complete none err

/-- The Go method `Get` (lines 23-30) run with no other goroutine: on a
complete promise the loop is skipped and `(p.v, p.err)` is returned; on an
incomplete one the call waits for ever, which is `none`. -/
def Promise.Get (p : Promise V E) : Option (Option V × Option E) :=
  if p.isComplete then some (p.v, p.err) else none

/-- A resolution call: `Complete(v)` or `CompleteWithError(e)`. -/
inductive Resolution (V E : Type) where
  | Complete (v : Option V)
  | CompleteWithError (e : Option E)
deriving DecidableEq, Repr

/-- Perform a resolution call on a promise. -/
def Resolution.apply (r : Resolution V E) (p : Promise V E) : Promise V E :=
  match r with
  | .Complete v => p.Complete v
  | .CompleteWithError e => p.CompleteWithError e

/-- The pair a resolution call hands to `complete`: `(v, nil)` or `(nil, e)`. -/
def Resolution.pair : Resolution V E → Option V × Option E
  | .Complete v => (v, none)
  | .CompleteWithError e => (none, e)

/-- Perform resolution calls one after the other, leftmost first. -/
def resolveAll (rs : List (Resolution V E)) (p : Promise V E) : Promise V E :=
  rs.foldl (fun q r => r.apply q) p

/-! ### Promises behind pointers, and `All` -/

/-- The memory holding promises: a `*Promise` is an address, `cells` gives the
promise stored at an address, `next` is the first address not yet handed out. -/
structure Heap (V E : Type) where
  cells : Nat → Promise V E
  next : Nat

/-- The memory before any promise is created. -/
def Heap.empty : Heap V E :=
  { cells := fun _ => NewPromise, next := 0 }

/-- The Go function `NewPromise` on the memory: a fresh cell is initialised
and its address returned. -/
def Heap.NewPromise (h : Heap V E) : Heap V E × Nat :=
  ({ cells := Function.update h.cells h.next PromiseGo.NewPromise, next := h.next + 1 }, h.next)

/-- Create `n` promises one after the other (the loop of `TestAll`, lines
124-126); the addresses are returned in creation order. -/
def Heap.NewPromises (h : Heap V E) : Nat → Heap V E × List Nat
  | 0 => (h, [])
  | n + 1 =>
    let r := h.NewPromise
    let rest := r.1.NewPromises n
    (rest.1, r.2 :: rest.2)

/-- A resolution call through a pointer: only the cell of `p` is written. -/
def Heap.resolve (h : Heap V E) (p : Nat) (r : Resolution V E) : Heap V E :=
  { h with cells := Function.update h.cells p (r.apply (h.cells p)) }

/-- The method `Complete` through a pointer. -/
def Heap.Complete (h : Heap V E) (p : Nat) (v : Option V) : Heap V E :=
  h.resolve p (.Complete v)

/-- The method `CompleteWithError` through a pointer. -/
def Heap.CompleteWithError (h : Heap V E) (p : Nat) (e : Option E) : Heap V E :=
  h.resolve p (.CompleteWithError e)

/-- The method `Get` through a pointer. -/
def Heap.Get (h : Heap V E) (p : Nat) : Option (Option V × Option E) :=
  (h.cells p).Get

/-- Perform resolution calls, each through its pointer, leftmost first. -/
def Heap.resolveCalls (h : Heap V E) (calls : List (Nat × Resolution V E)) : Heap V E :=
  calls.foldl (fun q c => q.resolve c.1 c.2) h

/-- A Go slice: `none` is the `nil` slice, `some l` a slice with elements `l`. -/
abbrev Slice (α : Type) := Option (List α)

/-- The elements of a slice; the `nil` slice has none. -/
def Slice.toList {α : Type} : Slice α → List α
  | none => []
  | some l => l

/-- The Go builtin `len` on a slice. -/
def Slice.len {α : Type} (s : Slice α) : Nat := s.toList.length

/-- The loop of `All` (lines 68-70) from index `i` on, over the promises not
yet visited: `vs[i], errs[i] = p.Get()`.  A `Get` that waits for ever makes
the whole loop wait for ever (`none`). -/
def All.loop (h : Heap V E) :
    List Nat → Nat → List (Option V) → List (Option E) →
      Option (List (Option V) × List (Option E))
  | [], _, vs, errs => some (vs, errs)
  | p :: ps, i, vs, errs =>
    match h.Get p with
    | none => none
    | some (v, e) => All.loop h ps (i + 1) (vs.set i v) (errs.set i e)

/-- The Go function `All` (lines 62-72): `nil, nil` on an empty input,
otherwise two slices made with the input's length and filled by the loop. -/
def All (h : Heap V E) (promises : List Nat) :
    Option (Slice (Option V) × Slice (Option E)) :=
  if promises.length = 0 then some (none, none)
  else
    match All.loop h promises 0 (List.replicate promises.length none)
        (List.replicate promises.length none) with
    | none => none
    | some (vs, errs) => some (some vs, some errs)

/-- A call on the memory of promises. -/
inductive Op (V E : Type) where
  | NewPromise
  | Complete (p : Nat) (v : Option V)
  | CompleteWithError (p : Nat) (e : Option E)
  | Get (p : Nat)
  | All (ps : List Nat)

/-- The memory after a call.  `Get` and `All` contain no assignment to a
promise, so they leave the memory as it is, whether they return or wait. -/
def Heap.step (h : Heap V E) : Op V E → Heap V E
  | .NewPromise => h.NewPromise.1
  | .Complete p v => h.Complete p v
  | .CompleteWithError p e => h.CompleteWithError p e
  | .Get _ => h
  | .All _ => h

/-- The memory after a sequence of calls, leftmost first. -/
def Heap.steps (h : Heap V E) (ops : List (Op V E)) : Heap V E :=
  ops.foldl Heap.step h

/-! ## Goroutine-level layer -/

/-- Where a goroutine stands inside a call of `Get` or of `complete`; the
line numbers are those of `promise.go`.  The arguments of a constructor are
the locals of the call that are still needed. -/
inductive Pc (V E : Type) where
  /-- Line 24, before `p.cond.L.Lock()`. -/
  | getLock
  /-- Line 25, the test `!p.isComplete`, mutex held. -/
  | getCheck
  /-- Line 26, entering `p.cond.Wait()`, mutex held. -/
  | getWait
  /-- Line 26, suspended inside `Wait`. -/
  | getParked
  /-- Line 26, woken inside `Wait`, before it locks the mutex again. -/
  | getRelock
  /-- Line 28, before `p.cond.L.Unlock()`. -/
  | getUnlock
  /-- Line 29, before reading `p.v`. -/
  | getReadV
  /-- Line 29, `p.v` read, before reading `p.err`. -/
  | getReadErr (v : Option V)
  /-- The call of `Get` has returned `(v, err)`. -/
  | getDone (v : Option V) (err : Option E)
  /-- Line 47, before `p.cond.L.Lock()`. -/
  | cLock (v : Option V) (err : Option E)
  /-- Line 48, the test `p.isComplete`, mutex held. -/
  | cCheck (v : Option V) (err : Option E)
  /-- Line 49, before the `Unlock` of the early return. -/
  | cUnlockRet
  /-- Line 52, before `p.v = v`. -/
  | cSetV (v : Option V) (err : Option E)
  /-- Line 53, before `p.err = err`. -/
  | cSetErr (err : Option E)
  /-- Line 54, before `p.isComplete = true`. -/
  | cSetFlag
  /-- Line 55, before `p.cond.L.Unlock()`. -/
  | cUnlock
  /-- Line 56, before `p.cond.Broadcast()`. -/
  | cBroadcast
  /-- The call of `complete` has returned. -/
  | cDone
deriving DecidableEq, Repr

/-- What the goroutines share: the data fields of the promise, the mutex
`p.cond.L` and the goroutines suspended on `p.cond`. -/
structure Shared (V E : Type) where
  p : Promise V E
  locked : Bool
  notify : List Nat
deriving DecidableEq, Repr

/-- One statement of goroutine `i` standing at `pc`; `none` when the goroutine
cannot move: `Lock` on a held mutex, `Wait` not yet woken, or a call that has
returned.  `sync.Cond` follows its documentation: `Wait` unlocks the mutex and
suspends the caller in one step, resumes only after a `Broadcast` and then
locks the mutex again; `Broadcast` wakes every suspended goroutine. -/
def next (i : Nat) (pc : Pc V E) (sh : Shared V E) : Option (Pc V E × Shared V E) :=
  match pc with
  | .getLock => if sh.locked then none else some (.getCheck, { sh with locked := true })
  | .getCheck => if sh.p.isComplete then some (.getUnlock, sh) else some (.getWait, sh)
  | .getWait => some (.getParked, { sh with locked := false, notify := i :: sh.notify })
  | .getParked => if i ∈ sh.notify then none else some (.getRelock, sh)
  | .getRelock => if sh.locked then none else some (.getCheck, { sh with locked := true })
  | .getUnlock => some (.getReadV, { sh with locked := false })
  | .getReadV => some (.getReadErr sh.p.v, sh)
  | .getReadErr v => some (.getDone v sh.p.err, sh)
  | .getDone _ _ => none
  | .cLock v err => if sh.locked then none else some (.cCheck v err, { sh with locked := true })
  | .cCheck v err => if sh.p.isComplete then some (.cUnlockRet, sh) else some (.cSetV v err, sh)
  | .cUnlockRet => some (.cDone, { sh with locked := false })
  | .cSetV v err => some (.cSetErr err, { sh with p := { sh.p with v := v } })
  | .cSetErr err => some (.cSetFlag, { sh with p := { sh.p with err := err } })
  | .cSetFlag => some (.cUnlock, { sh with p := { sh.p with isComplete := true } })
  | .cUnlock => some (.cBroadcast, { sh with locked := false })
  | .cBroadcast => some (.cDone, { sh with notify := [] })
  | .cDone => none

/-- A call issued on the promise by some goroutine. -/
inductive Call (V E : Type) where
  | Get
  | Complete (v : Option V)
  | CompleteWithError (e : Option E)
deriving DecidableEq, Repr

/-- Where a call starts: `Complete(v)` is `complete(v, nil)` and
`CompleteWithError(e)` is `complete(nil, e)`. -/
def Call.entry : Call V E → Pc V E
  | .Get => .getLock
  | .Complete v => .cLock v none
  | .CompleteWithError e => .cLock none e

/-- The promise together with the goroutines calling on it. -/
structure State (V E : Type) where
  sh : Shared V E
  threads : List (Pc V E)
deriving DecidableEq, Repr

/-- A promise just returned by `NewPromise` and one goroutine for each call,
none of which has started. -/
def init (calls : List (Call V E)) : State V E :=
  { sh := { p := NewPromise, locked := false, notify := [] },
    threads := calls.map Call.entry }

/-- Goroutine `i` executes one statement; `none` when there is no such
goroutine or when it cannot move. -/
def step (i : Nat) (s : State V E) : Option (State V E) :=
  match s.threads[i]? with
  | none => none
  | some pc =>
    match next i pc s.sh with
    | none => none
    | some (pc2, sh2) => some { sh := sh2, threads := s.threads.set i pc2 }

/-- Run a schedule: the goroutines named by `sched` move in turn, one
statement each; naming a goroutine that cannot move leaves the state as it
is.  Every interleaving of the calls is the run of some schedule. -/
def run (sched : List Nat) (s : State V E) : State V E :=
  sched.foldl (fun t i => (step i t).getD t) s

/-- The goroutine holds the mutex. -/
def Pc.holds : Pc V E → Bool
  | .getCheck | .getWait | .getUnlock => true
  | .cCheck _ _ | .cUnlockRet | .cSetV _ _ | .cSetErr _ | .cSetFlag | .cUnlock => true
  | _ => false

/-- The goroutine is between the test of line 48 and the write of the flag. -/
def Pc.writing : Pc V E → Bool
  | .cSetV _ _ | .cSetErr _ | .cSetFlag => true
  | _ => false

/-- The goroutine is inside a call of `Get`. -/
def Pc.inGet : Pc V E → Bool
  | .getLock | .getCheck | .getWait | .getParked | .getRelock | .getUnlock
  | .getReadV | .getReadErr _ | .getDone _ _ => true
  | _ => false

/-- What a goroutine past the loop of `Get` knows about the promise: the flag
is set, and what it has read so far is what the promise stores. -/
def Pc.obs (pc : Pc V E) (p : Promise V E) : Prop :=
  match pc with
  | .getUnlock | .getReadV => p.isComplete = true
  | .getReadErr v => p.isComplete = true ∧ v = p.v
  | .getDone v err => p.isComplete = true ∧ v = p.v ∧ err = p.err
  | _ => True

/-- The invariant of the goroutine-level layer: a goroutine in the critical
section implies a held mutex, at most one goroutine is in it, a goroutine
about to write saw the flag unset, and a goroutine past the loop of `Get`
reads the stored pair of a complete promise. -/
structure Inv (s : State V E) : Prop where
  locked : ∀ (i : Nat) (pc : Pc V E), s.threads[i]? = some pc → pc.holds = true →
    s.sh.locked = true
  excl : ∀ (i j : Nat) (pc1 pc2 : Pc V E), s.threads[i]? = some pc1 →
    s.threads[j]? = some pc2 → pc1.holds = true → pc2.holds = true → i = j
  fresh : ∀ (i : Nat) (pc : Pc V E), s.threads[i]? = some pc → pc.writing = true →
    s.sh.p.isComplete = false
  seen : ∀ (i : Nat) (pc : Pc V E), s.threads[i]? = some pc → pc.obs s.sh.p

/-- What a goroutine inside `complete` contributes to the pair that ends up
in the promise, for a set `A` of admitted pairs: its arguments are admitted
before line 52, and past line 52 the slots already written together with the
arguments still to be written are admitted. -/
def Pc.src (A : Option V × Option E → Prop) (pc : Pc V E) (p : Promise V E) : Prop :=
  match pc with
  | .cLock v err | .cCheck v err | .cSetV v err => A (v, err)
  | .cSetErr err => A (p.v, err)
  | .cSetFlag => A (p.v, p.err)
  | _ => True

/-- The pair stored in a complete promise is admitted, and so is what every
goroutine inside `complete` is about to store. -/
structure Src (A : Option V × Option E → Prop) (s : State V E) : Prop where
  thread : ∀ (i : Nat) (pc : Pc V E), s.threads[i]? = some pc → pc.src A s.sh.p
  stored : s.sh.p.isComplete = true → A (s.sh.p.v, s.sh.p.err)

/-- The exclusivity invariant of a promise: one of the two slots is nil, and
both are nil while the flag is unset. -/
def Promise.Exclusive (p : Promise V E) : Prop :=
  (p.v = none ∨ p.err = none) ∧ (p.isComplete = false → p.v = none ∧ p.err = none)

/-! ### `All` run statement by statement -/

/-- A call of `Get` run by goroutine `g` alone, statement by statement, from
`pc` on a promise with its mutex and notify list: it stops when the goroutine
cannot move (returned, suspended in `Wait`, or before a held mutex) or when
`fuel` statements were executed.  The result is where it stands and what it
left in memory. -/
def Get.exec (g : Nat) : Nat → Pc V E → Shared V E → Pc V E × Shared V E
  | 0, pc, sh => (pc, sh)
  | fuel + 1, pc, sh =>
    match next g pc sh with
    | none => (pc, sh)
    | some (pc2, sh2) => Get.exec g fuel pc2 sh2

/-- How a call of `All` run alone ends: it has returned two slices, or it
stands inside the `Get` of index `i` at `pc`.  Both carry the memory and the
argument slice as the call leaves them. -/
inductive AllOutcome (V E : Type) where
  | returned (mem : Nat → Shared V E) (promises : List Nat)
      (vs : Slice (Option V)) (errs : Slice (Option E))
  | blocked (mem : Nat → Shared V E) (promises : List Nat) (i : Nat) (pc : Pc V E)

/-- The memory a call of `All` leaves. -/
def AllOutcome.mem : AllOutcome V E → Nat → Shared V E
  | .returned mem _ _ _ => mem
  | .blocked mem _ _ _ => mem

/-- The argument slice as a call of `All` leaves it. -/
def AllOutcome.promises : AllOutcome V E → List Nat
  | .returned _ promises _ _ => promises
  | .blocked _ promises _ _ => promises

/-- The loop of `All` (lines 68-70) run by goroutine `g`, every `p.Get()`
executed statement by statement on the memory; `promises` is the argument
slice, the list recursed on is what `range` still has to visit. -/
def All.execLoop (g fuel : Nat) (promises : List Nat) :
    List Nat → Nat → List (Option V) → List (Option E) → (Nat → Shared V E) →
      AllOutcome V E
  | [], _, vs, errs, mem => .returned mem promises (some vs) (some errs)
  | p :: ps, i, vs, errs, mem =>
    match Get.exec g fuel .getLock (mem p) with
    | (.getDone v e, sh) =>
      All.execLoop g fuel promises ps (i + 1) (vs.set i v) (errs.set i e)
        (Function.update mem p sh)
    | (pc, sh) => .blocked (Function.update mem p sh) promises i pc

/-- The Go function `All` (lines 62-72) run by goroutine `g` alone, every
`Get` given `fuel` statements. -/
def All.exec (g fuel : Nat) (mem : Nat → Shared V E) (promises : List Nat) :
    AllOutcome V E :=
  if promises.length = 0 then .returned mem promises none none
  else
    All.execLoop g fuel promises promises 0 (List.replicate promises.length none)
      (List.replicate promises.length none) mem

/-- The data fields of the promises in a memory, as the call-level `Heap`. -/
def dataOf (mem : Nat → Shared V E) : Heap V E :=
  { cells := fun p => (mem p).p, next := 0 }

/-! ### Waking the readers -/

/-- The goroutine has set the flag at line 54 and has not yet executed the
`Broadcast` of line 56. -/
def Pc.announcing : Pc V E → Bool
  | .cUnlock | .cBroadcast => true
  | _ => false

/-- The goroutine stands where it can only be after the flag was set: past
the test of line 48 or past line 54 in `complete`, or woken inside `Wait`. -/
def Pc.sawSet : Pc V E → Bool
  | .cUnlockRet | .cUnlock | .cBroadcast | .cDone | .getRelock => true
  | _ => false

/-- A bound on the statements a goroutine still executes before its call
returns, given the flag; a reader at the test of line 25 goes once more
through `Wait` when the flag is unset. -/
def Pc.rank (flag : Bool) : Pc V E → Nat
  | .getLock => 9
  | .getCheck => if flag then 4 else 8
  | .getWait => 7
  | .getParked => 6
  | .getRelock => 5
  | .getUnlock => 3
  | .getReadV => 2
  | .getReadErr _ => 1
  | .getDone _ _ => 0
  | .cLock _ _ => 7
  | .cCheck _ _ => 6
  | .cSetV _ _ => 5
  | .cSetErr _ => 4
  | .cSetFlag => 3
  | .cUnlock => 2
  | .cBroadcast => 1
  | .cUnlockRet => 1
  | .cDone => 0

/-- The sum of the ranks of all goroutines. -/
def State.measure (s : State V E) : Nat :=
  (s.threads.map (Pc.rank s.sh.p.isComplete)).sum

/-- The number of statements executed along a schedule: the picks of
goroutines that can move. -/
def moves : List Nat → State V E → Nat
  | [], _ => 0
  | i :: sched, s =>
    match step i s with
    | none => moves sched s
    | some t => moves sched t + 1

/-- No goroutine can move. -/
def State.quiescent (s : State V E) : Bool :=
  (List.range s.threads.length).all fun i => (step i s).isNone

/-- The invariant behind the wake-up of readers, for the calls `calls`: a
reader entering `Wait` holds the mutex on an unset flag; once the flag is
set, either the goroutine that set it has its `Broadcast` still ahead or
nobody is suspended; a held mutex has a holder; goroutines past the flag and
woken readers imply a set flag; and every goroutine stays inside its call. -/
structure Wake (calls : List (Call V E)) (s : State V E) : Prop where
  wait : ∀ (i : Nat), s.threads[i]? = some .getWait → s.sh.p.isComplete = false
  woken : s.sh.p.isComplete = true →
    (∃ (i : Nat) (pc : Pc V E), s.threads[i]? = some pc ∧ pc.announcing = true) ∨
      s.sh.notify = []
  held : s.sh.locked = true →
    ∃ (i : Nat) (pc : Pc V E), s.threads[i]? = some pc ∧ pc.holds = true
  set : ∀ (i : Nat) (pc : Pc V E), s.threads[i]? = some pc → pc.sawSet = true →
    s.sh.p.isComplete = true
  parked : ∀ (i : Nat), s.threads[i]? = some .getParked → i ∉ s.sh.notify →
    s.sh.p.isComplete = true
  length : s.threads.length = calls.length
  kind : ∀ (i : Nat) (pc : Pc V E) (c : Call V E), s.threads[i]? = some pc →
    calls[i]? = some c → pc.inGet = c.entry.inGet

/-! ## Lemmas and theorems -/

set_option maxRecDepth 20000

/-! ### Helper lemmas of the call-level layer -/

theorem complete_of_complete (p : Promise V E) (v : Option V) (err : Option E)
    (h : p.isComplete = true) : p.complete v err = p := by
  simp [Promise.complete, h]

theorem complete_isComplete (p : Promise V E) (v : Option V) (err : Option E) :
    (p.complete v err).isComplete = true := by
  unfold Promise.complete
  split
  · assumption
  · rfl

theorem apply_of_complete (r : Resolution V E) (p : Promise V E)
    (h : p.isComplete = true) : r.apply p = p := by
  cases r <;>
    simp [Resolution.apply, Promise.Complete, Promise.CompleteWithError,
      complete_of_complete, h]

theorem resolveAll_of_complete (rs : List (Resolution V E)) (p : Promise V E)
    (h : p.isComplete = true) : resolveAll rs p = p := by
  induction rs with
  | nil => rfl
  | cons r rs ih =>
    show resolveAll rs (r.apply p) = p
    rw [apply_of_complete r p h]
    exact ih

theorem apply_new_get (r : Resolution V E) :
    (r.apply (NewPromise : Promise V E)).Get = some r.pair := by
  cases r <;> rfl

theorem apply_isComplete (r : Resolution V E) (p : Promise V E) :
    (r.apply p).isComplete = true := by
  cases r <;>
    simp [Resolution.apply, Promise.Complete, Promise.CompleteWithError,
      complete_isComplete]

/-! ### Goroutine level: the invariant -/

theorem getElem?_set_cases {α : Type} (l : List α) (i j : Nat) (a x : α)
    (h : (l.set i a)[j]? = some x) :
    (j = i ∧ x = a) ∨ (j ≠ i ∧ l[j]? = some x) := by
  by_cases hji : i = j
  · subst hji
    rw [List.getElem?_set] at h
    simp only [if_true] at h
    split at h
    · left; exact ⟨rfl, (Option.some.inj h).symm⟩
    · cases h
  · rw [List.getElem?_set_ne hji] at h
    right; exact ⟨fun e => hji e.symm, h⟩

theorem Pc.holds_of_writing (pc : Pc V E) (h : pc.writing = true) : pc.holds = true := by
  cases pc <;> simp_all [Pc.writing, Pc.holds]

theorem Pc.obs_of_incomplete (pc : Pc V E) (p q : Promise V E)
    (hp : p.isComplete = false) (h : pc.obs p) : pc.obs q := by
  cases pc <;> simp_all [Pc.obs]

/-- One move of goroutine `i` from `pc` to `pc2` keeps the invariant when the
move respects the mutex and writes the promise only inside the critical
section of a promise whose flag is unset. -/
theorem Inv.move {s : State V E} (hs : Inv s) {i : Nat} {pc pc2 : Pc V E}
    {sh2 : Shared V E} (hpc : s.threads[i]? = some pc)
    (h1 : pc2.holds = true → sh2.locked = true)
    (h2 : pc.holds = false → s.sh.locked = true → sh2.locked = true)
    (h3 : pc2.holds = true → pc.holds = true ∨ s.sh.locked = false)
    (h4 : pc2.writing = true → sh2.p.isComplete = false)
    (h5 : sh2.p = s.sh.p ∨ (pc.holds = true ∧ s.sh.p.isComplete = false))
    (h6 : pc2.obs sh2.p) :
    Inv { sh := sh2, threads := s.threads.set i pc2 } := by
  have other : ∀ (j : Nat) (pcj : Pc V E), j ≠ i → s.threads[j]? = some pcj →
      pcj.holds = true → pc.holds = false := by
    intro j pcj hji hj hh
    cases hpch : pc.holds with
    | false => rfl
    | true => exact absurd (hs.excl j i pcj pc hj hpc hh hpch) hji
  constructor
  · intro j pcj hj hh
    rcases getElem?_set_cases _ _ _ _ _ hj with ⟨_, rfl⟩ | ⟨hji, hj2⟩
    · exact h1 hh
    · exact h2 (other j pcj hji hj2 hh) (hs.locked j pcj hj2 hh)
  · intro j k pcj pck hj hk hhj hhk
    rcases getElem?_set_cases _ _ _ _ _ hj with ⟨rfl, rfl⟩ | ⟨hji, hj2⟩
    · rcases getElem?_set_cases _ _ _ _ _ hk with ⟨rfl, _⟩ | ⟨hki, hk2⟩
      · rfl
      · exfalso
        rcases h3 hhj with hp | hl
        · rw [other k pck hki hk2 hhk] at hp; cases hp
        · rw [hs.locked k pck hk2 hhk] at hl; cases hl
    · rcases getElem?_set_cases _ _ _ _ _ hk with ⟨rfl, rfl⟩ | ⟨hki, hk2⟩
      · exfalso
        rcases h3 hhk with hp | hl
        · rw [other j pcj hji hj2 hhj] at hp; cases hp
        · rw [hs.locked j pcj hj2 hhj] at hl; cases hl
      · exact hs.excl j k pcj pck hj2 hk2 hhj hhk
  · intro j pcj hj hw
    rcases getElem?_set_cases _ _ _ _ _ hj with ⟨_, rfl⟩ | ⟨hji, hj2⟩
    · exact h4 hw
    · rcases h5 with hp | ⟨hh, _⟩
      · show sh2.p.isComplete = false
        rw [hp]; exact hs.fresh j pcj hj2 hw
      · rw [other j pcj hji hj2 (Pc.holds_of_writing pcj hw)] at hh; cases hh
  · intro j pcj hj
    rcases getElem?_set_cases _ _ _ _ _ hj with ⟨_, rfl⟩ | ⟨hji, hj2⟩
    · exact h6
    · rcases h5 with hp | ⟨_, hc⟩
      · show pcj.obs sh2.p
        rw [hp]; exact hs.seen j pcj hj2
      · exact Pc.obs_of_incomplete pcj _ _ hc (hs.seen j pcj hj2)

theorem next_local {i : Nat} {pc pc2 : Pc V E} {sh sh2 : Shared V E}
    (hn : next i pc sh = some (pc2, sh2))
    (hl : pc.holds = true → sh.locked = true)
    (hf : pc.writing = true → sh.p.isComplete = false)
    (hsn : pc.obs sh.p) :
    (pc2.holds = true → sh2.locked = true) ∧
    (pc.holds = false → sh.locked = true → sh2.locked = true) ∧
    (pc2.holds = true → pc.holds = true ∨ sh.locked = false) ∧
    (pc2.writing = true → sh2.p.isComplete = false) ∧
    (sh2.p = sh.p ∨ (pc.holds = true ∧ sh.p.isComplete = false)) ∧
    pc2.obs sh2.p := by
  cases pc <;> simp only [next] at hn <;> (try split_ifs at hn) <;> cases hn <;>
    simp_all [Pc.holds, Pc.writing, Pc.obs]

theorem step_inv {s t : State V E} {i : Nat} (hs : Inv s) (h : step i s = some t) :
    Inv t := by
  unfold step at h
  cases hpc : s.threads[i]? with
  | none => simp [hpc] at h
  | some pc =>
    simp only [hpc] at h
    cases hn : next i pc s.sh with
    | none => simp [hn] at h
    | some r =>
      obtain ⟨pc2, sh2⟩ := r
      simp only [hn, Option.some.injEq] at h
      subst h
      obtain ⟨h1, h2, h3, h4, h5, h6⟩ :=
        next_local hn (hs.locked i pc hpc) (hs.fresh i pc hpc) (hs.seen i pc hpc)
      exact hs.move hpc h1 h2 h3 h4 h5 h6

theorem init_inv (calls : List (Call V E)) : Inv (init calls) := by
  have key : ∀ (i : Nat) (pc : Pc V E), (init calls).threads[i]? = some pc →
      pc.holds = false ∧ pc.writing = false ∧ ∀ p : Promise V E, pc.obs p := by
    intro i pc h
    simp only [init, List.getElem?_map, Option.map_eq_some'] at h
    obtain ⟨c, _, rfl⟩ := h
    cases c <;> simp [Call.entry, Pc.holds, Pc.writing, Pc.obs]
  constructor
  · intro i pc h hh
    rw [(key i pc h).1] at hh; cases hh
  · intro i j pc1 pc2 h _ hh
    rw [(key i pc1 h).1] at hh; cases hh
  · intro i pc h hw
    rw [(key i pc h).2.1] at hw; cases hw
  · intro i pc h
    exact (key i pc h).2.2 _

theorem run_nil (s : State V E) : run [] s = s := rfl

theorem run_cons (i : Nat) (sched : List Nat) (s : State V E) :
    run (i :: sched) s = run sched ((step i s).getD s) := rfl

theorem run_inv (sched : List Nat) {s : State V E} (hs : Inv s) : Inv (run sched s) := by
  induction sched generalizing s with
  | nil => exact hs
  | cons i sched ih =>
    rw [run_cons]
    cases h : step i s with
    | none => exact ih hs
    | some t => exact ih (step_inv hs h)

/-- A statement of `Get` leaves the data fields of the promise as they are
and stays inside `Get`. -/
theorem next_inGet {i : Nat} {pc pc2 : Pc V E} {sh sh2 : Shared V E}
    (hg : pc.inGet = true) (hn : next i pc sh = some (pc2, sh2)) :
    sh2.p = sh.p ∧ pc2.inGet = true := by
  cases pc <;> simp only [next] at hn <;> (try split_ifs at hn) <;> cases hn <;>
    simp_all [Pc.inGet]

/-- Only line 54 of `complete` sets the flag. -/
theorem next_sets_flag {i : Nat} {pc pc2 : Pc V E} {sh sh2 : Shared V E}
    (hn : next i pc sh = some (pc2, sh2)) (h0 : sh.p.isComplete = false)
    (h1 : sh2.p.isComplete = true) : pc = .cSetFlag := by
  cases pc <;> simp only [next] at hn <;> (try split_ifs at hn) <;> cases hn <;>
    simp_all

theorem step_eq_some {i : Nat} {s t : State V E} (h : step i s = some t) :
    ∃ pc pc2, s.threads[i]? = some pc ∧ next i pc s.sh = some (pc2, t.sh) ∧
      t.threads = s.threads.set i pc2 := by
  unfold step at h
  cases hpc : s.threads[i]? with
  | none => simp [hpc] at h
  | some pc =>
    simp only [hpc] at h
    cases hn : next i pc s.sh with
    | none => simp [hn] at h
    | some r =>
      obtain ⟨pc2, sh2⟩ := r
      simp only [hn, Option.some.injEq] at h
      subst h
      exact ⟨pc, pc2, rfl, hn, rfl⟩

/-- When every goroutine is inside `Get`, a move keeps it so and keeps the
promise. -/
theorem step_allGet {i : Nat} {s t : State V E} (h : step i s = some t)
    (hg : ∀ (j : Nat) (pc : Pc V E), s.threads[j]? = some pc → pc.inGet = true) :
    t.sh.p = s.sh.p ∧ ∀ (j : Nat) (pc : Pc V E), t.threads[j]? = some pc → pc.inGet = true := by
  obtain ⟨pc, pc2, hpc, hn, ht⟩ := step_eq_some h
  obtain ⟨hp, hg2⟩ := next_inGet (hg i pc hpc) hn
  refine ⟨hp, ?_⟩
  intro j pcj hj
  rw [ht] at hj
  rcases getElem?_set_cases _ _ _ _ _ hj with ⟨_, rfl⟩ | ⟨_, hj2⟩
  · exact hg2
  · exact hg j pcj hj2

theorem run_allGet (sched : List Nat) {s : State V E}
    (hg : ∀ (j : Nat) (pc : Pc V E), s.threads[j]? = some pc → pc.inGet = true) :
    (run sched s).sh.p = s.sh.p ∧
    ∀ (j : Nat) (pc : Pc V E), (run sched s).threads[j]? = some pc → pc.inGet = true := by
  induction sched generalizing s with
  | nil => exact ⟨rfl, hg⟩
  | cons i sched ih =>
    rw [run_cons]
    cases h : step i s with
    | none => exact ih hg
    | some t =>
      obtain ⟨hp, hg2⟩ := step_allGet h hg
      obtain ⟨hp3, hg3⟩ := ih hg2
      exact ⟨hp3.trans hp, hg3⟩

/-- On a complete promise with a free mutex a goroutine entering `Get`
returns the stored pair after five statements of its own, never waiting. -/
theorem get_alone (s : State V E) (i : Nat) (hpc : s.threads[i]? = some .getLock)
    (hl : s.sh.locked = false) (hc : s.sh.p.isComplete = true) :
    (run [i, i, i, i, i] s).threads[i]? = some (.getDone s.sh.p.v s.sh.p.err) ∧
    (run [i, i, i, i, i] s).sh = s.sh := by
  have hlen : i < s.threads.length := by
    rcases Nat.lt_or_ge i s.threads.length with h | h
    · exact h
    · rw [List.getElem?_eq_none h] at hpc; cases hpc
  obtain ⟨sh, th⟩ := s
  obtain ⟨p, locked, notify⟩ := sh
  simp only at hl hc hpc hlen
  subst hl
  simp [run, step, hpc, next, hc, hlen, List.getElem?_set_self]

/-- A goroutine running `complete(v, err)` alone from a free mutex leaves the
data fields that the call-level `Promise.complete` computes. -/
theorem complete_alone (sh : Shared V E) (v : Option V) (err : Option E)
    (hl : sh.locked = false) :
    (run [0, 0, 0, 0, 0, 0, 0] { sh := sh, threads := [.cLock v err] }).sh.p
      = sh.p.complete v err ∧
    (run [0, 0, 0, 0, 0, 0, 0] { sh := sh, threads := [.cLock v err] }).threads = [.cDone] ∧
    (run [0, 0, 0, 0, 0, 0, 0] { sh := sh, threads := [.cLock v err] }).sh.locked = false := by
  obtain ⟨p, locked, notify⟩ := sh
  simp only at hl
  subst hl
  cases hc : p.isComplete <;>
    simp [run, step, next, hc, Promise.complete]

/-- Outside lines 52-54 of `complete` no statement writes a data field. -/
theorem next_frame {i : Nat} {pc pc2 : Pc V E} {sh sh2 : Shared V E}
    (hn : next i pc sh = some (pc2, sh2)) (hw : pc.writing = false) : sh2.p = sh.p := by
  cases pc <;> simp only [next] at hn <;> (try split_ifs at hn) <;> cases hn <;>
    simp_all [Pc.writing]

/-- Write-once: from a state of a run in which the flag is set, no schedule
changes the data fields. -/
theorem run_frozen (sched : List Nat) {s : State V E} (hs : Inv s)
    (hc : s.sh.p.isComplete = true) : (run sched s).sh.p = s.sh.p := by
  induction sched generalizing s with
  | nil => rfl
  | cons i sched ih =>
    rw [run_cons]
    cases h : step i s with
    | none => exact ih hs hc
    | some t =>
      obtain ⟨pc, pc2, hpc, hn, _⟩ := step_eq_some h
      have hw : pc.writing = false := by
        cases hpw : pc.writing with
        | false => rfl
        | true => rw [hs.fresh i pc hpc hpw] at hc; cases hc
      have hp : t.sh.p = s.sh.p := next_frame hn hw
      show (run sched t).sh.p = s.sh.p
      rw [ih (step_inv hs h) (by rw [hp]; exact hc), hp]

/-! ### Goroutine level: where the stored pair comes from -/

theorem Pc.src_frame (A : Option V × Option E → Prop) (pc : Pc V E) (p q : Promise V E)
    (hh : pc.holds = false) (h : pc.src A p) : pc.src A q := by
  cases pc <;> simp_all [Pc.src, Pc.holds]

theorem next_src {A : Option V × Option E → Prop} {i : Nat} {pc pc2 : Pc V E}
    {sh sh2 : Shared V E} (hn : next i pc sh = some (pc2, sh2))
    (hsrc : pc.src A sh.p) (hst : sh.p.isComplete = true → A (sh.p.v, sh.p.err))
    (hf : pc.writing = true → sh.p.isComplete = false) :
    pc2.src A sh2.p ∧ (sh2.p.isComplete = true → A (sh2.p.v, sh2.p.err)) ∧
    (sh2.p = sh.p ∨ pc.holds = true) := by
  cases pc <;> simp only [next] at hn <;> (try split_ifs at hn) <;> cases hn <;>
    simp_all [Pc.src, Pc.holds, Pc.writing]

theorem step_src {A : Option V × Option E → Prop} {s t : State V E} {i : Nat}
    (hs : Inv s) (ha : Src A s) (h : step i s = some t) : Src A t := by
  obtain ⟨pc, pc2, hpc, hn, ht⟩ := step_eq_some h
  obtain ⟨h1, h2, h3⟩ := next_src hn (ha.thread i pc hpc) ha.stored (hs.fresh i pc hpc)
  refine ⟨?_, h2⟩
  intro j pcj hj
  rw [ht] at hj
  rcases getElem?_set_cases _ _ _ _ _ hj with ⟨_, rfl⟩ | ⟨hji, hj2⟩
  · exact h1
  · rcases h3 with hp | hh
    · rw [hp]; exact ha.thread j pcj hj2
    · apply Pc.src_frame A pcj s.sh.p _ _ (ha.thread j pcj hj2)
      cases hhj : pcj.holds with
      | false => rfl
      | true => exact absurd (hs.excl j i pcj pc hj2 hpc hhj hh) hji

theorem run_src {A : Option V × Option E → Prop} (sched : List Nat) {s : State V E}
    (hs : Inv s) (ha : Src A s) : Src A (run sched s) := by
  induction sched generalizing s with
  | nil => exact ha
  | cons i sched ih =>
    rw [run_cons]
    cases h : step i s with
    | none => exact ih hs ha
    | some t => exact ih (step_inv hs h) (step_src hs ha h)

/-- In every run on a fresh promise, the pair a call of `Get` has returned is
the pair of arguments of one of the calls of `complete`. -/
theorem returned_pair_supplied (calls : List (Call V E)) (sched : List Nat) (i : Nat)
    (a : Option V) (b : Option E)
    (h : (run sched (init calls)).threads[i]? = some (.getDone a b)) :
    ∃ c ∈ calls, c.entry = .cLock a b := by
  have hsrc : Src (fun pr => ∃ c ∈ calls, c.entry = .cLock pr.1 pr.2) (init calls) := by
    constructor
    · intro j pc hj
      simp only [init, List.getElem?_map, Option.map_eq_some'] at hj
      obtain ⟨c, hc, rfl⟩ := hj
      have hmem : c ∈ calls := List.mem_iff_getElem?.mpr ⟨j, hc⟩
      cases c with
      | Get => trivial
      | Complete v => exact ⟨_, hmem, rfl⟩
      | CompleteWithError e => exact ⟨_, hmem, rfl⟩
    · intro hc
      simp [init, NewPromise] at hc
  have hinv := run_inv sched (init_inv calls)
  have hseen := hinv.seen i _ h
  simp only [Pc.obs] at hseen
  have := (run_src sched (init_inv calls) hsrc).stored hseen.1
  rw [hseen.2.1, hseen.2.2]
  exact this

/-! ### Claims about a single promise -/

/-- C1: for every value `v`, `nil` included, `Complete(v)` on a fresh promise
followed by `Get` returns exactly `(v, nil)`: so at call level, so when the
statements of the two calls run one call after the other, and whenever a `Get`
returns in any interleaving of `Complete(v)` with any number of `Get` calls. -/
theorem C1_complete_then_get (v : Option V) :
    ((NewPromise : Promise V E).Complete v).Get = some (v, none) ∧
    (run [0, 0, 0, 0, 0, 0, 0, 1, 1, 1, 1, 1]
      (init [.Complete v, .Get] : State V E)).threads[1]? = some (.getDone v none) ∧
    (∀ (n : Nat) (sched : List Nat) (i : Nat) (a : Option V) (b : Option E),
      (run sched (init (.Complete v :: List.replicate n .Get) : State V E)).threads[i]?
        = some (.getDone a b) → a = v ∧ b = none) := by
  refine ⟨rfl, ?_, ?_⟩
  · simp [run, step, next, init, Call.entry, NewPromise]
  · intro n sched i a b h
    obtain ⟨c, hc, he⟩ := returned_pair_supplied _ sched i a b h
    rcases List.mem_cons.mp hc with rfl | hc
    · simp only [Call.entry, Pc.cLock.injEq] at he
      exact ⟨he.1.symm, he.2.symm⟩
    · rw [List.eq_of_mem_replicate hc] at he
      cases he

theorem C1_complete_then_get_witness :
    (run [1, 1, 1, 0, 0, 0, 0, 0, 0, 0, 1, 1, 1, 1, 1, 1]
      (init (.Complete (some 4) :: List.replicate 1 .Get) : State Nat Nat)).threads[1]?
      = some (.getDone (some 4) none) ∧
    ((some 4 : Option Nat) = some 4 ∧ (none : Option Nat) = none) :=
  ⟨by decide,
    (C1_complete_then_get (E := Nat) (some 4)).2.2 1
      [1, 1, 1, 0, 0, 0, 0, 0, 0, 0, 1, 1, 1, 1, 1, 1] 1 (some 4) none (by decide)⟩

/-- C2: for every non-nil error `e`, `CompleteWithError(e)` on a fresh promise
followed by `Get` returns exactly `(nil, e)`: so at call level, so when the
statements of the two calls run one call after the other, and whenever a `Get`
returns in any interleaving of `CompleteWithError(e)` with any number of `Get`
calls. -/
theorem C2_completeWithError_then_get (e : E) :
    ((NewPromise : Promise V E).CompleteWithError (some e)).Get = some (none, some e) ∧
    (run [0, 0, 0, 0, 0, 0, 0, 1, 1, 1, 1, 1]
      (init [.CompleteWithError (some e), .Get] : State V E)).threads[1]?
        = some (.getDone none (some e)) ∧
    (∀ (n : Nat) (sched : List Nat) (i : Nat) (a : Option V) (b : Option E),
      (run sched (init (.CompleteWithError (some e) :: List.replicate n .Get) :
        State V E)).threads[i]? = some (.getDone a b) → a = none ∧ b = some e) := by
  refine ⟨rfl, ?_, ?_⟩
  · simp [run, step, next, init, Call.entry, NewPromise]
  · intro n sched i a b h
    obtain ⟨c, hc, he⟩ := returned_pair_supplied _ sched i a b h
    rcases List.mem_cons.mp hc with rfl | hc
    · simp only [Call.entry, Pc.cLock.injEq] at he
      exact ⟨he.1.symm, he.2.symm⟩
    · rw [List.eq_of_mem_replicate hc] at he
      cases he

theorem C2_completeWithError_then_get_witness :
    (run [1, 1, 1, 0, 0, 0, 0, 0, 0, 0, 1, 1, 1, 1, 1, 1]
      (init (.CompleteWithError (some 7) :: List.replicate 1 .Get) : State Nat Nat)).threads[1]?
      = some (.getDone none (some 7)) ∧
    ((none : Option Nat) = none ∧ (some 7 : Option Nat) = some 7) :=
  ⟨by decide,
    (C2_completeWithError_then_get (V := Nat) 7).2.2 1
      [1, 1, 1, 0, 0, 0, 0, 0, 0, 0, 1, 1, 1, 1, 1, 1] 1 none (some 7) (by decide)⟩

/-- C3: on an already complete promise both `Complete(v)` and
`CompleteWithError(e)` change nothing: flag, value and error stay as they
were, and `Get` returns the same pair as before.  At the level of statements:
in every run on a fresh promise, once the flag is set no later statement of
any call changes the data fields. -/
theorem C3_resolve_complete_noop :
    (∀ (p : Promise V E) (v : Option V) (e : Option E), p.isComplete = true →
      p.Complete v = p ∧ p.CompleteWithError e = p ∧
      (p.Complete v).isComplete = true ∧ (p.CompleteWithError e).isComplete = true ∧
      (p.Complete v).v = p.v ∧ (p.Complete v).err = p.err ∧
      (p.CompleteWithError e).v = p.v ∧ (p.CompleteWithError e).err = p.err ∧
      (p.Complete v).Get = p.Get ∧ (p.CompleteWithError e).Get = p.Get ∧
      p.Get = some (p.v, p.err)) ∧
    (∀ (calls : List (Call V E)) (sched later : List Nat),
      (run sched (init calls)).sh.p.isComplete = true →
      (run later (run sched (init calls))).sh.p = (run sched (init calls)).sh.p) := by
  constructor
  · intro p v e h
    have h1 : p.Complete v = p := complete_of_complete p v none h
    have h2 : p.CompleteWithError e = p := complete_of_complete p none e h
    rw [h1, h2]
    simp [Promise.Get, h]
  · intro calls sched later h
    exact run_frozen later (run_inv sched (init_inv calls)) h

theorem C3_resolve_complete_noop_witness :
    (((NewPromise : Promise Nat Nat).Complete (some 1)).Complete (some 2)).Get
        = some (some 1, none) ∧
    (((NewPromise : Promise Nat Nat).Complete (some 1)).CompleteWithError (some 7)).Get
        = some (some 1, none) ∧
    (run [1, 1, 1, 1, 1, 1, 1] (run [0, 0, 0, 0, 0, 0, 0]
      (init [.Complete (some 1), .CompleteWithError (some 7)] : State Nat Nat))).sh.p
      = (run [0, 0, 0, 0, 0, 0, 0]
      (init [.Complete (some 1), .CompleteWithError (some 7)] : State Nat Nat)).sh.p := by
  have h := (C3_resolve_complete_noop (V := Nat) (E := Nat)).1
    ((NewPromise : Promise Nat Nat).Complete (some 1)) (some 2) (some 7) (by decide)
  exact ⟨h.2.2.2.2.2.2.2.2.1.trans (by decide), h.2.2.2.2.2.2.2.2.2.1.trans (by decide),
    (C3_resolve_complete_noop (V := Nat) (E := Nat)).2
      [.Complete (some 1), .CompleteWithError (some 7)] [0, 0, 0, 0, 0, 0, 0]
      [1, 1, 1, 1, 1, 1, 1] (by decide)⟩

/-- C4: first resolver wins.  For every non-empty sequence `r :: rs` of
resolution calls performed on a fresh promise, every later `Get` returns the
pair of the first call `r`, the state is the one `r` alone leaves, and it is
the same whatever the other calls `rs` are. -/
theorem C4_first_resolver_wins (r : Resolution V E) (rs : List (Resolution V E)) :
    (resolveAll (r :: rs) (NewPromise : Promise V E)).Get = some r.pair ∧
    resolveAll (r :: rs) (NewPromise : Promise V E) = r.apply NewPromise ∧
    ∀ rs2 : List (Resolution V E),
      (resolveAll (r :: rs2) (NewPromise : Promise V E)).Get
        = (resolveAll (r :: rs) (NewPromise : Promise V E)).Get := by
  have key : ∀ l : List (Resolution V E),
      resolveAll (r :: l) (NewPromise : Promise V E) = r.apply NewPromise := fun l =>
    resolveAll_of_complete l _ (apply_isComplete r _)
  refine ⟨?_, key rs, ?_⟩
  · rw [key rs]; exact apply_new_get r
  · intro rs2; rw [key rs, key rs2]


/-! ### Claims about reads under interleaving -/

/-- C5: reads agree.  In every run of any calls of `Get`, `Complete` and
`CompleteWithError` on a fresh promise under any schedule, any two calls of
`Get` that have returned hold the same pair, which is the pair the promise
stores; and a statement of `Get` never changes the data fields of the
promise. -/
theorem C5_reads_agree (calls : List (Call V E)) (sched : List Nat) :
    (∀ (i j : Nat) (v1 v2 : Option V) (e1 e2 : Option E),
      (run sched (init calls)).threads[i]? = some (.getDone v1 e1) →
      (run sched (init calls)).threads[j]? = some (.getDone v2 e2) →
      (v1, e1) = (v2, e2)) ∧
    (∀ (i : Nat) (v : Option V) (e : Option E),
      (run sched (init calls)).threads[i]? = some (.getDone v e) →
      (v, e) = ((run sched (init calls)).sh.p.v, (run sched (init calls)).sh.p.err)) ∧
    (∀ (s t : State V E) (i : Nat) (pc : Pc V E),
      s.threads[i]? = some pc → pc.inGet = true → step i s = some t → t.sh.p = s.sh.p) := by
  have hinv := run_inv sched (init_inv calls)
  have pair : ∀ (i : Nat) (v : Option V) (e : Option E),
      (run sched (init calls)).threads[i]? = some (.getDone v e) →
      (v, e) = ((run sched (init calls)).sh.p.v, (run sched (init calls)).sh.p.err) := by
    intro i v e h
    have := hinv.seen i _ h
    simp only [Pc.obs] at this
    rw [this.2.1, this.2.2]
  refine ⟨?_, pair, ?_⟩
  · intro i j v1 v2 e1 e2 h1 h2
    rw [pair i v1 e1 h1, pair j v2 e2 h2]
  · intro s t i pc hpc hg hstep
    obtain ⟨pc1, pc2, hpc1, hn, _⟩ := step_eq_some hstep
    rw [hpc] at hpc1
    cases hpc1
    exact (next_inGet hg hn).1

theorem C5_reads_agree_witness :
    (run [0, 0, 0, 1, 1, 1, 1, 1, 1, 1, 2, 2, 2, 2, 2, 0, 0, 0, 0, 0, 0, 3, 3, 3, 3]
      (init [.Get, .Complete (some 4), .Get, .CompleteWithError (some 7)] :
        State Nat Nat)).threads[0]? = some (.getDone (some 4) none) ∧
    (run [0, 0, 0, 1, 1, 1, 1, 1, 1, 1, 2, 2, 2, 2, 2, 0, 0, 0, 0, 0, 0, 3, 3, 3, 3]
      (init [.Get, .Complete (some 4), .Get, .CompleteWithError (some 7)] :
        State Nat Nat)).threads[2]? = some (.getDone (some 4) none) ∧
    ((some 4, none) : Option Nat × Option Nat) = (some 4, none) :=
  ⟨by decide, by decide,
    (C5_reads_agree [.Get, .Complete (some 4), .Get, .CompleteWithError (some 7)]
      [0, 0, 0, 1, 1, 1, 1, 1, 1, 1, 2, 2, 2, 2, 2, 0, 0, 0, 0, 0, 0, 3, 3, 3, 3]).1
      0 2 (some 4) (some 4) none none (by decide) (by decide)⟩

/-- C6: `Get` returns only on a complete promise.  A promise from `NewPromise`
has an unset flag and nil slots; `Get` on a promise with an unset flag does
not return; in every run on a fresh promise a call of `Get` that has returned
sees the flag set, the flag is set by line 54 of `complete` and by nothing
else, and when all calls are `Get` none ever returns; on a complete promise
`Get` returns the stored pair, and with the mutex free it does so in five
statements of its own, never entering `Wait`. -/
theorem C6_get_returns_only_on_complete :
    ((NewPromise : Promise V E).isComplete = false ∧
      (NewPromise : Promise V E).v = none ∧ (NewPromise : Promise V E).err = none) ∧
    (∀ p : Promise V E, p.isComplete = false → p.Get = none) ∧
    (∀ (calls : List (Call V E)) (sched : List Nat) (i : Nat) (v : Option V) (e : Option E),
      (run sched (init calls)).threads[i]? = some (.getDone v e) →
      (run sched (init calls)).sh.p.isComplete = true) ∧
    (∀ (s t : State V E) (i : Nat), step i s = some t → s.sh.p.isComplete = false →
      t.sh.p.isComplete = true → s.threads[i]? = some .cSetFlag) ∧
    (∀ (n : Nat) (sched : List Nat) (i : Nat) (v : Option V) (e : Option E),
      (run sched (init (List.replicate n (Call.Get : Call V E)))).threads[i]?
        ≠ some (.getDone v e)) ∧
    (∀ p : Promise V E, p.isComplete = true → p.Get = some (p.v, p.err)) ∧
    (∀ (s : State V E) (i : Nat), s.threads[i]? = some .getLock → s.sh.locked = false →
      s.sh.p.isComplete = true →
      (run [i, i, i, i, i] s).threads[i]? = some (.getDone s.sh.p.v s.sh.p.err)) := by
  refine ⟨⟨rfl, rfl, rfl⟩, ?_, ?_, ?_, ?_, ?_, ?_⟩
  · intro p h
    simp [Promise.Get, h]
  · intro calls sched i v e h
    have := (run_inv sched (init_inv calls)).seen i _ h
    exact this.1
  · intro s t i hstep h0 h1
    obtain ⟨pc, pc2, hpc, hn, _⟩ := step_eq_some hstep
    rw [hpc, next_sets_flag hn h0 h1]
  · intro n sched i v e h
    have hg : ∀ (j : Nat) (pc : Pc V E),
        (init (List.replicate n (Call.Get : Call V E))).threads[j]? = some pc →
        pc.inGet = true := by
      intro j pc hj
      simp only [init, List.getElem?_map, Option.map_eq_some'] at hj
      obtain ⟨c, hc, rfl⟩ := hj
      rw [List.getElem?_replicate] at hc
      split at hc
      · cases hc; rfl
      · cases hc
    have hp := (run_allGet sched hg).1
    have hc := (run_inv sched (init_inv _)).seen i _ h
    rw [hp] at hc
    exact absurd hc.1 (by simp [init, NewPromise])
  · intro p h
    simp [Promise.Get, h]
  · intro s i hpc hl hc
    exact (get_alone s i hpc hl hc).1

theorem C6_get_returns_only_on_complete_witness :
    (run [0, 0, 0, 0, 0, 0, 0, 0] (init [.Get] : State Nat Nat)).threads[0]?
      = some .getParked ∧
    (run [0, 0, 0, 1, 1, 1, 1, 1, 1, 1, 0, 0, 0, 0, 0, 0]
      (init [.Get, .Complete (some 4)] : State Nat Nat)).threads[0]?
      = some (.getDone (some 4) none) ∧
    (run [0, 0, 0, 1, 1, 1, 1, 1, 1, 1, 0, 0, 0, 0, 0, 0]
      (init [.Get, .Complete (some 4)] : State Nat Nat)).sh.p.isComplete = true :=
  ⟨by decide, by decide,
    (C6_get_returns_only_on_complete (V := Nat) (E := Nat)).2.2.1
      [.Get, .Complete (some 4)] [0, 0, 0, 1, 1, 1, 1, 1, 1, 1, 0, 0, 0, 0, 0, 0]
      0 (some 4) none (by decide)⟩

/-! ### `All` -/

theorem get_of_complete (p : Promise V E) (h : p.isComplete = true) :
    p.Get = some (p.v, p.err) := by
  simp [Promise.Get, h]

/-- The loop of `All` over complete promises: started at index `a1.length`
on slices `a1 ++ b1 ++ c1` and `a2 ++ b2 ++ c2`, it overwrites exactly the
middle parts, with the stored values and the stored errors in input order. -/
theorem loop_spec (h : Heap V E) (ps : List Nat)
    (hc : ∀ p ∈ ps, (h.cells p).isComplete = true) :
    ∀ (a1 b1 c1 : List (Option V)) (a2 b2 c2 : List (Option E)),
      b1.length = ps.length → b2.length = ps.length → a2.length = a1.length →
      All.loop h ps a1.length (a1 ++ b1 ++ c1) (a2 ++ b2 ++ c2)
        = some (a1 ++ ps.map (fun p => (h.cells p).v) ++ c1,
                a2 ++ ps.map (fun p => (h.cells p).err) ++ c2) := by
  induction ps with
  | nil =>
    intro a1 b1 c1 a2 b2 c2 h1 h2 _
    have e1 : b1 = [] := List.length_eq_zero.mp h1
    have e2 : b2 = [] := List.length_eq_zero.mp h2
    subst e1 e2
    simp [All.loop]
  | cons p ps ih =>
    intro a1 b1 c1 a2 b2 c2 h1 h2 h3
    cases b1 with
    | nil => cases h1
    | cons x b1 =>
    cases b2 with
    | nil => cases h2
    | cons y b2 =>
    have hp : (h.cells p).isComplete = true := hc p (List.mem_cons_self _ _)
    have s1 : (a1 ++ x :: b1 ++ c1).set a1.length (h.cells p).v
        = (a1 ++ [(h.cells p).v]) ++ b1 ++ c1 := by
      simp [List.append_assoc, List.set_append_right]
    have s2 : (a2 ++ y :: b2 ++ c2).set a1.length (h.cells p).err
        = (a2 ++ [(h.cells p).err]) ++ b2 ++ c2 := by
      rw [← h3]
      simp [List.append_assoc, List.set_append_right]
    have l1 : a1.length + 1 = (a1 ++ [(h.cells p).v]).length := by simp
    simp only [All.loop, Heap.Get, get_of_complete _ hp]
    rw [s1, s2, l1]
    rw [ih (fun q hq => hc q (List.mem_cons_of_mem _ hq)) _ b1 c1 _ b2 c2
      (by simpa using h1) (by simpa using h2) (by simp [h3])]
    simp [List.append_assoc]

/-- On complete promises `All` returns, and the elements of its two slices
are the stored values and the stored errors in input order. -/
theorem all_of_complete (h : Heap V E) (ps : List Nat)
    (hc : ∀ p ∈ ps, (h.cells p).isComplete = true) :
    ∃ (vs : Slice (Option V)) (errs : Slice (Option E)),
      All h ps = some (vs, errs) ∧
      vs.toList = ps.map (fun p => (h.cells p).v) ∧
      errs.toList = ps.map (fun p => (h.cells p).err) := by
  unfold All
  split
  · rename_i h0
    have e : ps = [] := List.length_eq_zero.mp h0
    subst e
    exact ⟨none, none, rfl, rfl, rfl⟩
  · have := loop_spec h ps hc [] (List.replicate ps.length none) []
      [] (List.replicate ps.length none) [] (by simp) (by simp) rfl
    simp only [List.nil_append, List.append_nil, List.length_nil] at this
    rw [this]
    exact ⟨_, _, rfl, rfl, rfl⟩

/-- C7: on `n` complete promises `All` returns two slices of length exactly
`n`, and at every index the pair of their entries is the pair that `Get`
returns on the promise at that index of the input. -/
theorem C7_all_matches_get (h : Heap V E) (promises : List Nat)
    (hc : ∀ p ∈ promises, (h.cells p).isComplete = true) :
    ∃ (vs : Slice (Option V)) (errs : Slice (Option E)),
      All h promises = some (vs, errs) ∧
      vs.len = promises.length ∧ errs.len = promises.length ∧
      ∀ (i : Nat) (hi : i < promises.length),
        ∃ (v : Option V) (e : Option E),
          vs.toList[i]? = some v ∧ errs.toList[i]? = some e ∧
          h.Get (promises.get ⟨i, hi⟩) = some (v, e) := by
  obtain ⟨vs, errs, hall, hv, he⟩ := all_of_complete h promises hc
  refine ⟨vs, errs, hall, by simp [Slice.len, hv], by simp [Slice.len, he], ?_⟩
  intro i hi
  refine ⟨(h.cells (promises.get ⟨i, hi⟩)).v, (h.cells (promises.get ⟨i, hi⟩)).err, ?_, ?_, ?_⟩
  · rw [hv, List.getElem?_map, List.getElem?_eq_getElem hi]; rfl
  · rw [he, List.getElem?_map, List.getElem?_eq_getElem hi]; rfl
  · exact get_of_complete _ (hc _ (List.get_mem _ _ _))

theorem C7_all_matches_get_witness :
    ∃ (vs : Slice (Option Nat)) (errs : Slice (Option Nat)),
      All ((((Heap.empty : Heap Nat Nat).NewPromises 2).1.Complete 0 (some 5)).CompleteWithError
        1 (some 9)) [0, 1, 0] = some (vs, errs) ∧
      vs.len = 3 ∧ errs.len = 3 ∧
      ∀ (i : Nat) (hi : i < 3),
        ∃ (v : Option Nat) (e : Option Nat),
          vs.toList[i]? = some v ∧ errs.toList[i]? = some e ∧
          ((((Heap.empty : Heap Nat Nat).NewPromises 2).1.Complete 0 (some 5)).CompleteWithError
            1 (some 9)).Get ([0, 1, 0].get ⟨i, hi⟩) = some (v, e) :=
  C7_all_matches_get _ [0, 1, 0] (by
    intro p hp
    simp only [List.mem_cons, List.mem_singleton, List.not_mem_nil, or_false] at hp
    rcases hp with rfl | rfl | rfl <;> decide)

/-! ### Resolution order and input order -/

theorem newPromises_snd (h : Heap V E) (n : Nat) :
    (h.NewPromises n).2 = List.range' h.next n := by
  induction n generalizing h with
  | zero => rfl
  | succ n ih =>
    simp only [Heap.NewPromises, List.range'_succ]
    rw [ih]
    rfl

theorem newPromises_cells_lt (h : Heap V E) (n p : Nat) (hp : p < h.next) :
    (h.NewPromises n).1.cells p = h.cells p := by
  induction n generalizing h with
  | zero => rfl
  | succ n ih =>
    simp only [Heap.NewPromises]
    rw [ih _ (by simp only [Heap.NewPromise]; omega)]
    simp only [Heap.NewPromise]
    exact Function.update_noteq (by omega) _ _

/-- Every promise created by `NewPromises` is fresh. -/
theorem newPromises_cells (h : Heap V E) (n p : Nat) (hp : p ∈ (h.NewPromises n).2) :
    (h.NewPromises n).1.cells p = NewPromise := by
  induction n generalizing h with
  | zero => simp [Heap.NewPromises] at hp
  | succ n ih =>
    simp only [Heap.NewPromises, List.mem_cons] at hp ⊢
    rcases hp with rfl | hp
    · rw [newPromises_cells_lt _ _ _ (by simp [Heap.NewPromise])]
      simp [Heap.NewPromise]
    · exact ih _ hp

theorem resolveCalls_cons (h : Heap V E) (c : Nat × Resolution V E)
    (cs : List (Nat × Resolution V E)) :
    h.resolveCalls (c :: cs) = (h.resolve c.1 c.2).resolveCalls cs := rfl

/-- Calls through other pointers leave the promise behind `p` alone. -/
theorem resolveCalls_other (calls : List (Nat × Resolution V E)) (h : Heap V E) (p : Nat)
    (hp : p ∉ calls.map Prod.fst) : (h.resolveCalls calls).cells p = h.cells p := by
  induction calls generalizing h with
  | nil => rfl
  | cons c cs ih =>
    simp only [List.map_cons, List.mem_cons, not_or] at hp
    rw [resolveCalls_cons, ih _ hp.2]
    simp only [Heap.resolve]
    exact Function.update_noteq hp.1 _ _

/-- When no pointer is resolved twice, the promise behind `p` ends as its one
resolution call leaves it, wherever that call stands among the others. -/
theorem resolveCalls_mem (calls : List (Nat × Resolution V E)) (h : Heap V E)
    (hn : (calls.map Prod.fst).Nodup) (p : Nat) (r : Resolution V E)
    (hm : (p, r) ∈ calls) : (h.resolveCalls calls).cells p = r.apply (h.cells p) := by
  induction calls generalizing h with
  | nil => cases hm
  | cons c cs ih =>
    simp only [List.map_cons, List.nodup_cons] at hn
    rw [resolveCalls_cons]
    rcases List.mem_cons.mp hm with rfl | hm
    · rw [resolveCalls_other _ _ _ hn.1]
      simp [Heap.resolve]
    · have hne : p ≠ c.1 := by
        intro e
        apply hn.1
        rw [← e]
        exact List.mem_map_of_mem Prod.fst hm
      rw [ih _ hn.2 hm]
      simp only [Heap.resolve]
      rw [Function.update_noteq hne]

theorem apply_new_fields (r : Resolution V E) :
    (r.apply (NewPromise : Promise V E)).v = r.pair.1 ∧
    (r.apply (NewPromise : Promise V E)).err = r.pair.2 ∧
    (r.apply (NewPromise : Promise V E)).isComplete = true := by
  cases r <;> exact ⟨rfl, rfl, rfl⟩

/-- The result of `All` after `n` fresh promises were resolved, the `i`-th by
`rs[i]`, in any order. -/
theorem all_after_resolutions (h0 : Heap V E) (rs : List (Resolution V E))
    (calls : List (Nat × Resolution V E))
    (hperm : calls.Perm ((h0.NewPromises rs.length).2.zip rs)) :
    ∃ (vs : Slice (Option V)) (errs : Slice (Option E)),
      All ((h0.NewPromises rs.length).1.resolveCalls calls) (h0.NewPromises rs.length).2
        = some (vs, errs) ∧
      vs.toList = rs.map (fun r => r.pair.1) ∧
      errs.toList = rs.map (fun r => r.pair.2) := by
  have hlen : (h0.NewPromises rs.length).2.length = rs.length := by
    rw [newPromises_snd, List.length_range']
  have hnd : (calls.map Prod.fst).Nodup := by
    rw [(hperm.map Prod.fst).nodup_iff, List.map_fst_zip _ _ (le_of_eq hlen), newPromises_snd]
    exact List.nodup_range' _ _
  have cell : ∀ c ∈ (h0.NewPromises rs.length).2.zip rs,
      ((h0.NewPromises rs.length).1.resolveCalls calls).cells c.1
        = c.2.apply NewPromise := by
    intro c hc
    rw [resolveCalls_mem calls _ hnd c.1 c.2 (hperm.mem_iff.mpr hc),
      newPromises_cells _ _ _ (List.of_mem_zip hc).1]
  have hcomplete : ∀ p ∈ (h0.NewPromises rs.length).2,
      (((h0.NewPromises rs.length).1.resolveCalls calls).cells p).isComplete = true := by
    intro p hp
    rw [← List.map_fst_zip _ rs (le_of_eq hlen)] at hp
    obtain ⟨c, hc, rfl⟩ := List.mem_map.mp hp
    rw [cell c hc]
    exact (apply_new_fields c.2).2.2
  obtain ⟨vs, errs, hall, hv, he⟩ := all_of_complete _ _ hcomplete
  refine ⟨vs, errs, hall, ?_, ?_⟩
  · rw [hv]
    conv_lhs => rw [← List.map_fst_zip (h0.NewPromises rs.length).2 rs (le_of_eq hlen)]
    conv_rhs => rw [← List.map_snd_zip (h0.NewPromises rs.length).2 rs (le_of_eq hlen.symm)]
    rw [List.map_map, List.map_map]
    apply List.map_congr_left
    intro c hc
    simp only [Function.comp]
    rw [cell c hc]
    exact (apply_new_fields c.2).1
  · rw [he]
    conv_lhs => rw [← List.map_fst_zip (h0.NewPromises rs.length).2 rs (le_of_eq hlen)]
    conv_rhs => rw [← List.map_snd_zip (h0.NewPromises rs.length).2 rs (le_of_eq hlen.symm)]
    rw [List.map_map, List.map_map]
    apply List.map_congr_left
    intro c hc
    simp only [Function.comp]
    rw [cell c hc]
    exact (apply_new_fields c.2).2.1

/-- C8: `n` fresh promises are created and the `i`-th is resolved by `rs[i]`,
the `n` resolution calls coming in any order `calls`; then `All` on the
promises in creation order returns slices of length `n` with `(v, nil)` at
every index resolved by `Complete(v)` and `(nil, e)` at every index resolved
by `CompleteWithError(e)`.  In particular values `vals` give back `vals` and
errors that are all nil. -/
theorem C8_all_follows_input_order (h0 : Heap V E) (rs : List (Resolution V E))
    (calls : List (Nat × Resolution V E))
    (hperm : calls.Perm ((h0.NewPromises rs.length).2.zip rs)) :
    ∃ (vs : Slice (Option V)) (errs : Slice (Option E)),
      All ((h0.NewPromises rs.length).1.resolveCalls calls) (h0.NewPromises rs.length).2
        = some (vs, errs) ∧
      vs.len = rs.length ∧ errs.len = rs.length ∧
      (∀ (i : Nat) (v : Option V), rs[i]? = some (.Complete v) →
        vs.toList[i]? = some v ∧ errs.toList[i]? = some none) ∧
      (∀ (i : Nat) (e : Option E), rs[i]? = some (.CompleteWithError e) →
        vs.toList[i]? = some none ∧ errs.toList[i]? = some e) ∧
      (∀ vals : List (Option V), rs = vals.map Resolution.Complete →
        vs.toList = vals ∧ errs.toList = List.replicate vals.length none) := by
  obtain ⟨vs, errs, hall, hv, he⟩ := all_after_resolutions h0 rs calls hperm
  refine ⟨vs, errs, hall, by simp [Slice.len, hv], by simp [Slice.len, he], ?_, ?_, ?_⟩
  · intro i v hi
    rw [hv, he, List.getElem?_map, List.getElem?_map, hi]
    exact ⟨rfl, rfl⟩
  · intro i e hi
    rw [hv, he, List.getElem?_map, List.getElem?_map, hi]
    exact ⟨rfl, rfl⟩
  · intro vals hvals
    subst hvals
    rw [hv, he, List.map_map, List.map_map]
    constructor
    · exact (List.map_congr_left (fun _ _ => rfl)).trans (List.map_id _)
    · apply List.ext_getElem?
      intro k
      rw [List.getElem?_map, List.getElem?_replicate]
      split
      · rename_i hk
        rw [List.getElem?_eq_getElem hk]; rfl
      · rename_i hk
        rw [List.getElem?_eq_none (Nat.le_of_not_lt hk)]; rfl

theorem C8_all_follows_input_order_witness :
    ([(3, .Complete (some 4)), (1, .CompleteWithError (some 9)), (0, .Complete (some 1)),
        (2, .Complete (some 3))] : List (Nat × Resolution Nat Nat)).Perm
      (((Heap.empty : Heap Nat Nat).NewPromises 4).2.zip
        [.Complete (some 1), .CompleteWithError (some 9), .Complete (some 3),
          .Complete (some 4)]) ∧
    ∃ (vs : Slice (Option Nat)) (errs : Slice (Option Nat)),
      All (((Heap.empty : Heap Nat Nat).NewPromises 4).1.resolveCalls
          [(3, .Complete (some 4)), (1, .CompleteWithError (some 9)), (0, .Complete (some 1)),
            (2, .Complete (some 3))])
        ((Heap.empty : Heap Nat Nat).NewPromises 4).2 = some (vs, errs) ∧
      vs.toList[1]? = some none ∧ errs.toList[1]? = some (some 9) ∧
      vs.toList[3]? = some (some 4) ∧ errs.toList[3]? = some none := by
  have hperm : ([(3, .Complete (some 4)), (1, .CompleteWithError (some 9)),
      (0, .Complete (some 1)), (2, .Complete (some 3))] : List (Nat × Resolution Nat Nat)).Perm
      (((Heap.empty : Heap Nat Nat).NewPromises 4).2.zip
        [.Complete (some 1), .CompleteWithError (some 9), .Complete (some 3),
          .Complete (some 4)]) := by decide
  refine ⟨hperm, ?_⟩
  obtain ⟨vs, errs, hall, _, _, hval, herr, _⟩ :=
    C8_all_follows_input_order (Heap.empty : Heap Nat Nat)
      [.Complete (some 1), .CompleteWithError (some 9), .Complete (some 3), .Complete (some 4)]
      _ hperm
  exact ⟨vs, errs, hall, (herr 1 (some 9) rfl).1, (herr 1 (some 9) rfl).2,
    (hval 3 (some 4) rfl).1, (hval 3 (some 4) rfl).2⟩

/-- C9: on an empty input `All` returns at once, whatever the promises in
memory are, and both returned slices are `nil`, of length 0. -/
theorem C9_all_empty (h : Heap V E) :
    ∃ (vs : Slice (Option V)) (errs : Slice (Option E)),
      All h [] = some (vs, errs) ∧ vs = none ∧ errs = none ∧ vs.len = 0 ∧ errs.len = 0 :=
  ⟨none, none, rfl, rfl, rfl, rfl, rfl⟩

/-! ### Exclusivity -/

theorem exclusive_new : (NewPromise : Promise V E).Exclusive :=
  ⟨Or.inl rfl, fun _ => ⟨rfl, rfl⟩⟩

theorem exclusive_apply (r : Resolution V E) (p : Promise V E) (hp : p.Exclusive) :
    (r.apply p).Exclusive := by
  cases hc : p.isComplete with
  | true => rw [apply_of_complete r p hc]; exact hp
  | false =>
    cases r <;>
      simp [Resolution.apply, Promise.Complete, Promise.CompleteWithError, Promise.complete,
        Promise.Exclusive, hc]

theorem exclusive_update (f : Nat → Promise V E) (p : Nat) (q : Promise V E)
    (hf : ∀ k, (f k).Exclusive) (hq : q.Exclusive) (k : Nat) :
    (Function.update f p q k).Exclusive := by
  by_cases hk : k = p
  · subst hk; rw [Function.update_same]; exact hq
  · rw [Function.update_noteq hk]; exact hf k

theorem exclusive_step (h : Heap V E) (op : Op V E) (hh : ∀ k, (h.cells k).Exclusive) :
    ∀ k, ((h.step op).cells k).Exclusive := by
  cases op with
  | NewPromise => exact exclusive_update _ _ _ hh exclusive_new
  | Complete p v => exact exclusive_update _ _ _ hh (exclusive_apply _ _ (hh p))
  | CompleteWithError p e => exact exclusive_update _ _ _ hh (exclusive_apply _ _ (hh p))
  | Get p => exact hh
  | All ps => exact hh

theorem exclusive_steps (ops : List (Op V E)) (h : Heap V E)
    (hh : ∀ k, (h.cells k).Exclusive) : ∀ k, ((h.steps ops).cells k).Exclusive := by
  induction ops generalizing h with
  | nil => exact hh
  | cons op ops ih => exact ih _ (exclusive_step h op hh)

/-- C10: exclusivity.  After any sequence of `NewPromise`, `Complete`,
`CompleteWithError`, `Get` and `All` calls, every promise has a nil value or a
nil error, both are nil while its flag is unset, and every pair that `Get`
returns on it has a nil value or a nil error; the last also holds for every
`Get` that returns in any interleaving of the statements of any calls. -/
theorem C10_exclusivity :
    (∀ (ops : List (Op V E)) (p : Nat),
      ((((Heap.empty : Heap V E).steps ops).cells p).v = none ∨
        (((Heap.empty : Heap V E).steps ops).cells p).err = none) ∧
      ((((Heap.empty : Heap V E).steps ops).cells p).isComplete = false →
        (((Heap.empty : Heap V E).steps ops).cells p).v = none ∧
        (((Heap.empty : Heap V E).steps ops).cells p).err = none) ∧
      (∀ (a : Option V) (b : Option E),
        ((Heap.empty : Heap V E).steps ops).Get p = some (a, b) → a = none ∨ b = none)) ∧
    (∀ (calls : List (Call V E)) (sched : List Nat) (i : Nat) (a : Option V) (b : Option E),
      (run sched (init calls)).threads[i]? = some (.getDone a b) → a = none ∨ b = none) := by
  constructor
  · intro ops p
    have hx := exclusive_steps ops (Heap.empty : Heap V E) (fun _ => exclusive_new) p
    refine ⟨hx.1, hx.2, ?_⟩
    intro a b hget
    unfold Heap.Get Promise.Get at hget
    split at hget
    · cases hget; exact hx.1
    · cases hget
  · intro calls sched i a b h
    obtain ⟨c, _, he⟩ := returned_pair_supplied calls sched i a b h
    cases c with
    | Get => cases he
    | Complete v =>
      simp only [Call.entry, Pc.cLock.injEq] at he
      exact Or.inr he.2.symm
    | CompleteWithError e =>
      simp only [Call.entry, Pc.cLock.injEq] at he
      exact Or.inl he.1.symm

theorem C10_exclusivity_witness :
    ((Heap.empty : Heap Nat Nat).steps
      [.NewPromise, .NewPromise, .CompleteWithError 1 (some 9), .Get 1, .Complete 1 (some 2),
        .All [1]]).Get 1 = some (none, some 9) ∧
    ((none : Option Nat) = none ∨ (some 9 : Option Nat) = none) :=
  ⟨by decide,
    ((C10_exclusivity (V := Nat) (E := Nat)).1
      [.NewPromise, .NewPromise, .CompleteWithError 1 (some 9), .Get 1,
        .Complete 1 (some 2), .All [1]] 1).2.2 none (some 9) (by decide)⟩

/-! ### Resolving with nil -/

/-- C14: `Complete(nil)` on a fresh promise is a real resolution: value and
error are nil after it as they were before, only the flag differs (unset
before, set after), and `Get` returns `(nil, nil)` where on the fresh promise
it waits; the same on the statements of the two calls. -/
theorem C14_complete_nil :
    (((NewPromise : Promise V E).Complete none).v = none ∧
      ((NewPromise : Promise V E).Complete none).err = none ∧
      ((NewPromise : Promise V E).Complete none).isComplete = true) ∧
    ((NewPromise : Promise V E).v = none ∧ (NewPromise : Promise V E).err = none ∧
      (NewPromise : Promise V E).isComplete = false) ∧
    (NewPromise : Promise V E).Complete none
      = { (NewPromise : Promise V E) with isComplete := true } ∧
    (NewPromise : Promise V E).Get = none ∧
    ((NewPromise : Promise V E).Complete none).Get = some (none, none) ∧
    (run [1, 1, 1, 1, 1, 1, 1, 1] (init [.Complete none, .Get] : State V E)).threads[1]?
      = some .getParked ∧
    (run [0, 0, 0, 0, 0, 0, 0, 1, 1, 1, 1, 1]
      (init [.Complete none, .Get] : State V E)).threads[1]? = some (.getDone none none) ∧
    (run [0, 0, 0, 0, 0, 0, 0] (init [.Complete none] : State V E)).sh.p
      = { v := none, err := none, isComplete := true } := by
  refine ⟨⟨rfl, rfl, rfl⟩, ⟨rfl, rfl, rfl⟩, rfl, rfl, rfl, ?_, ?_, ?_⟩ <;>
    simp [run, step, next, init, Call.entry, NewPromise]

/-- C15: `CompleteWithError` stores whatever error it is given, nil included:
for every `err`, on a fresh promise it sets the flag, leaves the value nil and
stores `err` itself, so `Get` returns `(nil, err)`, at call level, on the
statements of the two calls, and for every `Get` that returns in any
interleaving.  With `err` nil this is exactly the state `Complete(nil)`
leaves, the two calls start the same run whatever the other calls are, `Get`
returns `(nil, nil)`, and a later `CompleteWithError(e)` with `e` non-nil
changes nothing. -/
theorem C15_completeWithError_nil (e : E) :
    (∀ err : Option E,
      ((NewPromise : Promise V E).CompleteWithError err).err = err ∧
      ((NewPromise : Promise V E).CompleteWithError err).v = none ∧
      ((NewPromise : Promise V E).CompleteWithError err).isComplete = true ∧
      ((NewPromise : Promise V E).CompleteWithError err).Get = some (none, err) ∧
      (run [0, 0, 0, 0, 0, 0, 0] (init [.CompleteWithError err] : State V E)).sh.p
        = { v := none, err := err, isComplete := true } ∧
      (run [0, 0, 0, 0, 0, 0, 0, 1, 1, 1, 1, 1]
        (init [.CompleteWithError err, .Get] : State V E)).threads[1]?
          = some (.getDone none err) ∧
      (∀ (n : Nat) (sched : List Nat) (i : Nat) (a : Option V) (b : Option E),
        (run sched (init (.CompleteWithError err :: List.replicate n .Get) :
          State V E)).threads[i]? = some (.getDone a b) → a = none ∧ b = err)) ∧
    (∀ rest : List (Call V E),
      (init (.CompleteWithError none :: rest) : State V E)
        = init (.Complete none :: rest)) ∧
    ((NewPromise : Promise V E).CompleteWithError none).isComplete = true ∧
    ((NewPromise : Promise V E).CompleteWithError none).err = none ∧
    (NewPromise : Promise V E).CompleteWithError none
      = (NewPromise : Promise V E).Complete none ∧
    ((NewPromise : Promise V E).CompleteWithError none).Get = some (none, none) ∧
    ((NewPromise : Promise V E).CompleteWithError none).CompleteWithError (some e)
      = (NewPromise : Promise V E).CompleteWithError none ∧
    (((NewPromise : Promise V E).CompleteWithError none).CompleteWithError (some e)).Get
      = some (none, none) ∧
    (run [0, 0, 0, 0, 0, 0, 0] (init [.CompleteWithError none] : State V E)).sh
      = (run [0, 0, 0, 0, 0, 0, 0] (init [.Complete none] : State V E)).sh ∧
    (run [0, 0, 0, 0, 0, 0, 0, 1, 1, 1, 1, 1, 1, 1, 2, 2, 2, 2, 2]
      (init [.CompleteWithError none, .CompleteWithError (some e), .Get] :
        State V E)).threads[2]? = some (.getDone none none) := by
  refine ⟨?_, fun _ => rfl, rfl, rfl, rfl, rfl, rfl, rfl, ?_, ?_⟩
  · intro err
    refine ⟨rfl, rfl, rfl, rfl, ?_, ?_, ?_⟩
    · simp [run, step, next, init, Call.entry, NewPromise]
    · simp [run, step, next, init, Call.entry, NewPromise]
    · intro n sched i a b h
      obtain ⟨c, hc, he⟩ := returned_pair_supplied _ sched i a b h
      rcases List.mem_cons.mp hc with rfl | hc
      · simp only [Call.entry, Pc.cLock.injEq] at he
        exact ⟨he.1.symm, he.2.symm⟩
      · rw [List.eq_of_mem_replicate hc] at he
        cases he
  · simp [run, step, next, init, Call.entry, NewPromise]
  · simp [run, step, next, init, Call.entry, NewPromise]

theorem C15_completeWithError_nil_witness :
    (run [1, 1, 1, 0, 0, 0, 0, 0, 0, 0, 1, 1, 1, 1, 1, 1]
      (init (.CompleteWithError none :: List.replicate 1 .Get) : State Nat Nat)).threads[1]?
      = some (.getDone none none) ∧
    (run [1, 1, 1, 0, 0, 0, 0, 0, 0, 0, 1, 1, 1, 1, 1, 1]
      (init (.CompleteWithError (some 7) :: List.replicate 1 .Get) :
        State Nat Nat)).threads[1]? = some (.getDone none (some 7)) ∧
    ((none : Option Nat) = none ∧ (none : Option Nat) = none) ∧
    ((none : Option Nat) = none ∧ (some 7 : Option Nat) = some 7) :=
  ⟨by decide, by decide,
    ((C15_completeWithError_nil (V := Nat) (7 : Nat)).1 none).2.2.2.2.2.2 1
      [1, 1, 1, 0, 0, 0, 0, 0, 0, 0, 1, 1, 1, 1, 1, 1] 1 none none (by decide),
    ((C15_completeWithError_nil (V := Nat) (7 : Nat)).1 (some 7)).2.2.2.2.2.2 1
      [1, 1, 1, 0, 0, 0, 0, 0, 0, 0, 1, 1, 1, 1, 1, 1] 1 none (some 7) (by decide)⟩

/-! ### `All` statement by statement: frame and blocking -/

/-- Statements of `Get` run alone never change the data fields. -/
theorem exec_frame (g fuel : Nat) (pc : Pc V E) (sh : Shared V E) (hg : pc.inGet = true) :
    (Get.exec g fuel pc sh).2.p = sh.p ∧ (Get.exec g fuel pc sh).1.inGet = true := by
  induction fuel generalizing pc sh with
  | zero => exact ⟨rfl, hg⟩
  | succ fuel ih =>
    unfold Get.exec
    cases hn : next g pc sh with
    | none => exact ⟨rfl, hg⟩
    | some r =>
      obtain ⟨pc2, sh2⟩ := r
      obtain ⟨hp, hg2⟩ := next_inGet hg hn
      obtain ⟨h1, h2⟩ := ih pc2 sh2 hg2
      exact ⟨h1.trans hp, h2⟩

/-- A goroutine that cannot move stays where it is, whatever the fuel. -/
theorem exec_stuck (g fuel : Nat) (pc : Pc V E) (sh : Shared V E)
    (h : next g pc sh = none) : Get.exec g fuel pc sh = (pc, sh) := by
  cases fuel with
  | zero => rfl
  | succ fuel => simp [Get.exec, h]

/-- On a complete promise with a free mutex `Get` run alone returns the
stored pair and leaves mutex and notify list as they were. -/
theorem exec_complete (g fuel : Nat) (sh : Shared V E) (hl : sh.locked = false)
    (hc : sh.p.isComplete = true) (hf : 5 ≤ fuel) :
    Get.exec g fuel .getLock sh = (.getDone sh.p.v sh.p.err, sh) := by
  obtain ⟨k, rfl⟩ : ∃ k, fuel = k + 5 := ⟨fuel - 5, by omega⟩
  obtain ⟨p, locked, notify⟩ := sh
  simp only at hl hc
  subst hl
  simp only [Get.exec, next, hc, Bool.false_eq_true, if_false, if_true]
  exact exec_stuck _ _ _ _ rfl

/-- On an incomplete promise with a free mutex `Get` run alone ends suspended
in `Wait`, registered in the notify list, the mutex free again. -/
theorem exec_incomplete (g fuel : Nat) (sh : Shared V E) (hl : sh.locked = false)
    (hc : sh.p.isComplete = false) (hf : 3 ≤ fuel) :
    Get.exec g fuel .getLock sh = (.getParked, { sh with notify := g :: sh.notify }) ∧
    next g .getParked { sh with notify := g :: sh.notify } = none := by
  obtain ⟨k, rfl⟩ : ∃ k, fuel = k + 3 := ⟨fuel - 3, by omega⟩
  obtain ⟨p, locked, notify⟩ := sh
  simp only at hl hc
  subst hl
  have hstuck : next g .getParked
      ({ p := p, locked := false, notify := g :: notify } : Shared V E) = none := by
    simp [next]
  refine ⟨?_, hstuck⟩
  simp only [Get.exec, next, hc, Bool.false_eq_true, if_false]
  exact exec_stuck _ _ _ _ hstuck

/-- Whatever the memory and the fuel, the loop of `All` leaves the data
fields of every promise and the argument slice as they were. -/
theorem execLoop_frame (g fuel : Nat) (promises ps : List Nat) :
    ∀ (i : Nat) (vs : List (Option V)) (errs : List (Option E)) (mem : Nat → Shared V E),
      (∀ q, ((All.execLoop g fuel promises ps i vs errs mem).mem q).p = (mem q).p) ∧
      (All.execLoop g fuel promises ps i vs errs mem).promises = promises := by
  induction ps with
  | nil => intro i vs errs mem; exact ⟨fun _ => rfl, rfl⟩
  | cons p ps ih =>
    intro i vs errs mem
    have hfr := (exec_frame g fuel .getLock (mem p) rfl).1
    have upd : ∀ q, (Function.update mem p (Get.exec g fuel .getLock (mem p)).2 q).p
        = (mem q).p := by
      intro q
      by_cases hq : q = p
      · subst hq; rw [Function.update_same]; exact hfr
      · rw [Function.update_noteq hq]
    unfold All.execLoop
    split
    · rename_i v e sh heq
      rw [heq] at upd
      obtain ⟨h1, h2⟩ := ih (i + 1) (vs.set i v) (errs.set i e) (Function.update mem p sh)
      exact ⟨fun q => (h1 q).trans (upd q), h2⟩
    · rename_i pc sh _ heq
      rw [heq] at upd
      exact ⟨upd, rfl⟩

/-- When the call-level loop returns, the loop run statement by statement
with free mutexes returns the same slices and the memory untouched. -/
theorem execLoop_of_loop (g fuel : Nat) (hf : 5 ≤ fuel) (promises : List Nat)
    (mem : Nat → Shared V E) (ps : List Nat)
    (hl : ∀ p ∈ ps, (mem p).locked = false) :
    ∀ (i : Nat) (vs : List (Option V)) (errs : List (Option E))
      (r : List (Option V) × List (Option E)),
      All.loop (dataOf mem) ps i vs errs = some r →
      All.execLoop g fuel promises ps i vs errs mem
        = .returned mem promises (some r.1) (some r.2) := by
  induction ps with
  | nil =>
    intro i vs errs r h
    simp only [All.loop, Option.some.injEq] at h
    subst h
    rfl
  | cons p ps ih =>
    intro i vs errs r h
    have hlp := hl p (List.mem_cons_self _ _)
    cases hc : (mem p).p.isComplete with
    | false =>
      simp [All.loop, Heap.Get, dataOf, Promise.Get, hc] at h
    | true =>
      simp only [All.loop, Heap.Get, dataOf, Promise.Get, hc, if_true] at h
      simp only [All.execLoop, exec_complete g fuel (mem p) hlp hc hf,
        Function.update_eq_self]
      exact ih (fun q hq => hl q (List.mem_cons_of_mem _ hq)) _ _ _ r h

/-- The loop run statement by statement stops inside the `Get` of the first
incomplete promise, suspended in `Wait`. -/
theorem execLoop_blocked (g fuel : Nat) (hf : 5 ≤ fuel) (promises : List Nat)
    (mem : Nat → Shared V E) (ps : List Nat)
    (hl : ∀ p ∈ ps, (mem p).locked = false) :
    ∀ (k i : Nat) (vs : List (Option V)) (errs : List (Option E)) (p : Nat),
      ps[k]? = some p → (mem p).p.isComplete = false →
      (∀ (j q : Nat), j < k → ps[j]? = some q → (mem q).p.isComplete = true) →
      All.execLoop g fuel promises ps i vs errs mem
        = .blocked (Function.update mem p { mem p with notify := g :: (mem p).notify })
            promises (i + k) .getParked := by
  induction ps with
  | nil => intro k i vs errs p h; cases h
  | cons q ps ih =>
    intro k i vs errs p hk hc hbefore
    have hlq := hl q (List.mem_cons_self _ _)
    cases k with
    | zero =>
      simp only [List.getElem?_cons_zero, Option.some.injEq] at hk
      subst hk
      simp only [All.execLoop, (exec_incomplete g fuel (mem q) hlq hc (by omega)).1]
      rfl
    | succ k =>
      have hq : (mem q).p.isComplete = true := hbefore 0 q (Nat.succ_pos _) (by simp)
      simp only [List.getElem?_cons_succ] at hk
      simp only [All.execLoop, exec_complete g fuel (mem q) hlq hq hf,
        Function.update_eq_self]
      rw [ih (fun r hr => hl r (List.mem_cons_of_mem _ hr)) k (i + 1) _ _ p hk hc
        (fun j r hj hr => hbefore (j + 1) r (Nat.succ_lt_succ hj) (by simpa using hr))]
      congr 1
      omega

/-- The call-level loop returns only when every promise it visits is
complete. -/
theorem loop_some_complete (h : Heap V E) (ps : List Nat) :
    ∀ (i : Nat) (vs : List (Option V)) (errs : List (Option E))
      (r : List (Option V) × List (Option E)),
      All.loop h ps i vs errs = some r → ∀ p ∈ ps, (h.cells p).isComplete = true := by
  induction ps with
  | nil => intro i vs errs r _ p hp; cases hp
  | cons q ps ih =>
    intro i vs errs r hr p hp
    cases hc : (h.cells q).isComplete with
    | false => simp [All.loop, Heap.Get, Promise.Get, hc] at hr
    | true =>
      simp only [All.loop, Heap.Get, Promise.Get, hc, if_true] at hr
      rcases List.mem_cons.mp hp with rfl | hp
      · exact hc
      · exact ih _ _ _ r hr p hp

theorem all_some_complete (h : Heap V E) (ps : List Nat)
    (r : Slice (Option V) × Slice (Option E)) (hr : All h ps = some r) :
    ∀ p ∈ ps, (h.cells p).isComplete = true := by
  unfold All at hr
  split at hr
  · rename_i h0
    rw [List.length_eq_zero.mp h0]
    intro p hp; cases hp
  · split at hr
    · cases hr
    · rename_i vs errs heq
      exact loop_some_complete h ps _ _ _ _ heq

/-- When the call-level `All` returns, `All` run statement by statement with
free mutexes returns the same slices and leaves the whole memory untouched. -/
theorem exec_of_all (g fuel : Nat) (hf : 5 ≤ fuel) (mem : Nat → Shared V E)
    (promises : List Nat) (hl : ∀ p ∈ promises, (mem p).locked = false)
    (vs : Slice (Option V)) (errs : Slice (Option E))
    (h : All (dataOf mem) promises = some (vs, errs)) :
    All.exec g fuel mem promises = .returned mem promises vs errs := by
  unfold All at h
  unfold All.exec
  split
  · rename_i h0
    simp only [h0, if_true, Option.some.injEq, Prod.mk.injEq] at h
    obtain ⟨rfl, rfl⟩ := h
    rfl
  · rename_i h0
    simp only [h0, if_false] at h
    split at h
    · cases h
    · rename_i a b heq
      simp only [Option.some.injEq, Prod.mk.injEq] at h
      obtain ⟨rfl, rfl⟩ := h
      exact execLoop_of_loop g fuel hf promises mem promises hl _ _ _ (a, b) heq

/-- C11: `All` is read-only on its inputs.  Run statement by statement on any
memory, with any fuel, returned or not, it leaves the flag, value and error
of every promise and its argument slice as they were, so it resolves nothing;
on complete promises with free mutexes it returns and the memory after the
call is the memory before it.  At call level a call of `All` leaves the
memory as it is. -/
theorem C11_all_read_only (g fuel : Nat) (mem : Nat → Shared V E) (promises : List Nat) :
    (∀ q, ((All.exec g fuel mem promises).mem q).p = (mem q).p) ∧
    (All.exec g fuel mem promises).promises = promises ∧
    (5 ≤ fuel →
      (∀ p ∈ promises, (mem p).locked = false ∧ (mem p).p.isComplete = true) →
      ∃ (vs : Slice (Option V)) (errs : Slice (Option E)),
        All (dataOf mem) promises = some (vs, errs) ∧
        All.exec g fuel mem promises = .returned mem promises vs errs) ∧
    (∀ (h : Heap V E) (ps : List Nat), h.step (.All ps) = h) := by
  refine ⟨?_, ?_, ?_, fun _ _ => rfl⟩
  · unfold All.exec
    split
    · intro q; rfl
    · exact (execLoop_frame g fuel promises promises _ _ _ mem).1
  · unfold All.exec
    split
    · rfl
    · exact (execLoop_frame g fuel promises promises _ _ _ mem).2
  · intro hf hc
    obtain ⟨vs, errs, hall, _, _⟩ :=
      all_of_complete (dataOf mem) promises (fun p hp => (hc p hp).2)
    exact ⟨vs, errs, hall,
      exec_of_all g fuel hf mem promises (fun p hp => (hc p hp).1) vs errs hall⟩

theorem C11_all_read_only_witness :
    ∃ (vs : Slice (Option Nat)) (errs : Slice (Option Nat)),
      All (dataOf (fun p => if p = 0
          then ({ p := { v := some 5, err := none, isComplete := true },
                    locked := false, notify := [] } : Shared Nat Nat)
          else { p := { v := none, err := some 9, isComplete := true },
                    locked := false, notify := [] })) [0, 1, 0] = some (vs, errs) ∧
      All.exec 7 5 (fun p => if p = 0
          then ({ p := { v := some 5, err := none, isComplete := true },
                    locked := false, notify := [] } : Shared Nat Nat)
          else { p := { v := none, err := some 9, isComplete := true },
                    locked := false, notify := [] }) [0, 1, 0]
        = .returned (fun p => if p = 0
          then ({ p := { v := some 5, err := none, isComplete := true },
                    locked := false, notify := [] } : Shared Nat Nat)
          else { p := { v := none, err := some 9, isComplete := true },
                    locked := false, notify := [] }) [0, 1, 0] vs errs :=
  (C11_all_read_only 7 5 _ [0, 1, 0]).2.2.1 (by decide) (by
    intro p hp
    simp only [List.mem_cons, List.mem_singleton, List.not_mem_nil, or_false] at hp
    rcases hp with rfl | rfl | rfl <;> exact ⟨rfl, rfl⟩)

/-- C13: `All` returns exactly when every input promise is complete.  At call
level it has a result if and only if all inputs are complete, and none if and
only if some input is not.  Run statement by statement with free mutexes, it
returns on complete inputs, and otherwise it stands inside the `Get` of the
first incomplete promise in input order, suspended in `Wait` and unable to
move. -/
theorem C13_all_returns_iff_complete (h : Heap V E) (promises : List Nat) :
    ((∃ r, All h promises = some r) ↔ ∀ p ∈ promises, (h.cells p).isComplete = true) ∧
    (All h promises = none ↔ ∃ p ∈ promises, (h.cells p).isComplete = false) ∧
    (∀ (g fuel : Nat) (mem : Nat → Shared V E), 5 ≤ fuel →
      (∀ p ∈ promises, (mem p).locked = false) →
      ((∀ p ∈ promises, (mem p).p.isComplete = true) →
        ∃ (vs : Slice (Option V)) (errs : Slice (Option E)),
          All.exec g fuel mem promises = .returned mem promises vs errs) ∧
      (∀ (k p : Nat), promises[k]? = some p → (mem p).p.isComplete = false →
        (∀ (j q : Nat), j < k → promises[j]? = some q → (mem q).p.isComplete = true) →
        All.exec g fuel mem promises
          = .blocked (Function.update mem p { mem p with notify := g :: (mem p).notify })
              promises k .getParked ∧
        next g .getParked ({ mem p with notify := g :: (mem p).notify } : Shared V E)
          = none)) := by
  have iff1 : (∃ r, All h promises = some r) ↔
      ∀ p ∈ promises, (h.cells p).isComplete = true := by
    constructor
    · rintro ⟨r, hr⟩
      exact all_some_complete h promises r hr
    · intro hc
      obtain ⟨vs, errs, hall, _, _⟩ := all_of_complete h promises hc
      exact ⟨_, hall⟩
  refine ⟨iff1, ?_, ?_⟩
  · constructor
    · intro hnone
      by_contra hno
      have hc : ∀ p ∈ promises, (h.cells p).isComplete = true := by
        intro p hp
        cases hpc : (h.cells p).isComplete with
        | true => rfl
        | false => exact absurd ⟨p, hp, hpc⟩ hno
      obtain ⟨r, hr⟩ := iff1.mpr hc
      rw [hnone] at hr
      cases hr
    · rintro ⟨p, hp, hpc⟩
      cases hall : All h promises with
      | none => rfl
      | some r =>
        have := iff1.mp ⟨r, hall⟩ p hp
        rw [hpc] at this
        cases this
  · intro g fuel mem hf hl
    constructor
    · intro hc
      obtain ⟨vs, errs, hall, _, _⟩ := all_of_complete (dataOf mem) promises hc
      exact ⟨vs, errs, exec_of_all g fuel hf mem promises hl vs errs hall⟩
    · intro k p hk hc hbefore
      have hne : ¬ promises.length = 0 := by
        intro h0
        rw [List.length_eq_zero.mp h0] at hk
        cases hk
      have hlp : (mem p).locked = false := hl p (List.mem_iff_getElem?.mpr ⟨k, hk⟩)
      refine ⟨?_, (exec_incomplete g fuel (mem p) hlp hc (by omega)).2⟩
      unfold All.exec
      rw [if_neg hne, execLoop_blocked g fuel hf promises mem promises hl k 0 _ _ p hk hc
        hbefore, Nat.zero_add]

theorem C13_all_returns_iff_complete_witness :
    All.exec 7 5 (fun p => if p = 0
        then ({ p := { v := some 5, err := none, isComplete := true },
                    locked := false, notify := [] } : Shared Nat Nat)
        else { p := NewPromise, locked := false, notify := [] }) [0, 1, 0]
      = .blocked (Function.update (fun p => if p = 0
        then ({ p := { v := some 5, err := none, isComplete := true },
                    locked := false, notify := [] } : Shared Nat Nat)
        else { p := NewPromise, locked := false, notify := [] }) 1
          { p := NewPromise, locked := false, notify := [7] }) [0, 1, 0] 1 .getParked ∧
    next 7 .getParked
      ({ p := NewPromise, locked := false, notify := [7] } : Shared Nat Nat) = none :=
  ((C13_all_returns_iff_complete (Heap.empty : Heap Nat Nat) [0, 1, 0]).2.2 7 5
    (fun p => if p = 0
        then ({ p := { v := some 5, err := none, isComplete := true },
                    locked := false, notify := [] } : Shared Nat Nat)
        else { p := NewPromise, locked := false, notify := [] }) (by decide) (by
      intro p hp
      simp only [List.mem_cons, List.mem_singleton, List.not_mem_nil, or_false] at hp
      rcases hp with rfl | rfl | rfl <;> rfl)).2 1 1 rfl rfl (by
      intro j q hj hq
      have hj0 : j = 0 := by omega
      subst hj0
      simp only [List.getElem?_cons_zero, Option.some.injEq] at hq
      subst hq
      rfl)

/-! ### Goroutine level: waking the readers -/

/-- What one statement does to the facts the invariant `Wake` is made of. -/
theorem next_wake {i : Nat} {pc pc2 : Pc V E} {sh sh2 : Shared V E}
    (hn : next i pc sh = some (pc2, sh2))
    (hw : pc = .getWait → sh.p.isComplete = false)
    (hs : pc.sawSet = true → sh.p.isComplete = true)
    (hp : pc = .getParked → i ∉ sh.notify → sh.p.isComplete = true) :
    (pc2 = .getWait → sh2.p.isComplete = false) ∧
    (sh2.p.isComplete = sh.p.isComplete ∨ pc.holds = true) ∧
    (sh2.p.isComplete = true → pc2.announcing = true ∨ sh2.notify = [] ∨
      (pc.announcing = false ∧ sh.p.isComplete = true ∧
        (sh.notify = [] → sh2.notify = []))) ∧
    (sh2.locked = true → pc2.holds = true ∨ (pc.holds = false ∧ sh.locked = true)) ∧
    (pc2.sawSet = true → sh2.p.isComplete = true) ∧
    (sh.p.isComplete = true → sh2.p.isComplete = true) ∧
    (pc2 = .getParked → i ∈ sh2.notify) ∧
    (∀ j, j ∉ sh2.notify → j ∈ sh.notify → sh2.p.isComplete = true) ∧
    pc2.inGet = pc.inGet ∧
    pc2.rank sh2.p.isComplete < pc.rank sh.p.isComplete := by
  cases pc <;> simp only [next] at hn <;> (try split_ifs at hn) <;> cases hn <;>
    simp_all [Pc.holds, Pc.announcing, Pc.sawSet, Pc.inGet, Pc.rank]
  split <;> omega

theorem getElem?_set_at {α : Type} (l : List α) (i : Nat) (a b : α)
    (h : l[i]? = some a) : (l.set i b)[i]? = some b := by
  apply List.getElem?_set_self
  rcases Nat.lt_or_ge i l.length with hlt | hge
  · exact hlt
  · rw [List.getElem?_eq_none hge] at h; cases h

theorem getElem?_set_other {α : Type} (l : List α) (i j : Nat) (b : α) (h : j ≠ i) :
    (l.set i b)[j]? = l[j]? :=
  List.getElem?_set_ne (fun e => h e.symm)

theorem step_wake {calls : List (Call V E)} {s t : State V E} {i : Nat}
    (hs : Inv s) (hk : Wake calls s) (h : step i s = some t) : Wake calls t := by
  obtain ⟨pc, pc2, hpc, hn, ht⟩ := step_eq_some h
  obtain ⟨l1, l2, l3, l4, l5, l6, l7, l8, l9, _⟩ := next_wake hn
    (fun e => hk.wait i (e ▸ hpc)) (hk.set i pc hpc)
    (fun e hni => hk.parked i (e ▸ hpc) hni)
  have self : t.threads[i]? = some pc2 := by
    rw [ht]; exact getElem?_set_at _ _ _ _ hpc
  have other : ∀ (j : Nat), j ≠ i → t.threads[j]? = s.threads[j]? := by
    intro j hj; rw [ht]; exact getElem?_set_other _ _ _ _ hj
  have split : ∀ (j : Nat) (pcj : Pc V E), t.threads[j]? = some pcj →
      (j = i ∧ pcj = pc2) ∨ (j ≠ i ∧ s.threads[j]? = some pcj) := by
    intro j pcj hj
    rw [ht] at hj
    exact getElem?_set_cases _ _ _ _ _ hj
  constructor
  · intro j hj
    rcases split j _ hj with ⟨_, e⟩ | ⟨hji, hj2⟩
    · exact l1 e.symm
    · rcases l2 with hp | hh
      · rw [hp]; exact hk.wait j hj2
      · exact absurd (hs.excl j i _ pc hj2 hpc rfl hh) hji
  · intro hflag
    rcases l3 hflag with ha | hnil | ⟨hna, hflag0, hkeep⟩
    · exact Or.inl ⟨i, pc2, self, ha⟩
    · exact Or.inr hnil
    · rcases hk.woken hflag0 with ⟨j, pcj, hj, haj⟩ | hnil
      · have hji : j ≠ i := by
          intro e
          subst e
          rw [hpc] at hj
          cases hj
          rw [hna] at haj
          cases haj
        exact Or.inl ⟨j, pcj, (other j hji).trans hj, haj⟩
      · exact Or.inr (hkeep hnil)
  · intro hl
    rcases l4 hl with hh | ⟨hnh, hl0⟩
    · exact ⟨i, pc2, self, hh⟩
    · obtain ⟨j, pcj, hj, hhj⟩ := hk.held hl0
      have hji : j ≠ i := by
        intro e
        subst e
        rw [hpc] at hj
        cases hj
        rw [hnh] at hhj
        cases hhj
      exact ⟨j, pcj, (other j hji).trans hj, hhj⟩
  · intro j pcj hj hsaw
    rcases split j pcj hj with ⟨_, rfl⟩ | ⟨_, hj2⟩
    · exact l5 hsaw
    · exact l6 (hk.set j pcj hj2 hsaw)
  · intro j hj hnot
    rcases split j _ hj with ⟨rfl, e⟩ | ⟨_, hj2⟩
    · exact absurd (l7 e.symm) hnot
    · by_cases hmem : j ∈ s.sh.notify
      · exact l8 j hnot hmem
      · exact l6 (hk.parked j hj2 hmem)
  · rw [ht, List.length_set]; exact hk.length
  · intro j pcj c hj hc
    rcases split j pcj hj with ⟨rfl, rfl⟩ | ⟨_, hj2⟩
    · rw [l9]; exact hk.kind j pc c hpc hc
    · exact hk.kind j pcj c hj2 hc

theorem init_wake (calls : List (Call V E)) : Wake calls (init calls) := by
  have key : ∀ (i : Nat) (pc : Pc V E), (init calls).threads[i]? = some pc →
      ∃ c, calls[i]? = some c ∧ pc = c.entry := by
    intro i pc h
    simp only [init, List.getElem?_map, Option.map_eq_some'] at h
    obtain ⟨c, hc, rfl⟩ := h
    exact ⟨c, hc, rfl⟩
  constructor
  · intro i h
    obtain ⟨c, _, e⟩ := key i _ h
    cases c <;> cases e
  · intro h
    simp [init, NewPromise] at h
  · intro h
    simp [init] at h
  · intro i pc h hsaw
    obtain ⟨c, _, rfl⟩ := key i pc h
    cases c <;> cases hsaw
  · intro i h
    obtain ⟨c, _, e⟩ := key i _ h
    cases c <;> cases e
  · simp [init]
  · intro i pc c h hc
    obtain ⟨c2, hc2, rfl⟩ := key i pc h
    rw [hc] at hc2
    cases hc2
    rfl

theorem run_wake {calls : List (Call V E)} (sched : List Nat) {s : State V E}
    (hs : Inv s) (hk : Wake calls s) : Wake calls (run sched s) := by
  induction sched generalizing s with
  | nil => exact hk
  | cons i sched ih =>
    rw [run_cons]
    cases h : step i s with
    | none => exact ih hs hk
    | some t => exact ih (step_inv hs h) (step_wake hs hk h)

/-! ### Goroutine level: every run is finite and ends with the readers returned -/

theorem sum_map_le {α : Type} (f g : α → Nat) (l : List α) (h : ∀ x, f x ≤ g x) :
    (l.map f).sum ≤ (l.map g).sum := by
  induction l with
  | nil => exact Nat.le_refl _
  | cons x l ih =>
    simp only [List.map_cons, List.sum_cons]
    exact Nat.add_le_add (h x) ih

theorem sum_set_lt {α : Type} (f g : α → Nat) (l : List α) (i : Nat) (a b : α)
    (hi : l[i]? = some a) (hlt : f b < g a) (hle : ∀ x, f x ≤ g x) :
    ((l.set i b).map f).sum < (l.map g).sum := by
  induction l generalizing i with
  | nil => cases hi
  | cons x l ih =>
    cases i with
    | zero =>
      simp only [List.getElem?_cons_zero, Option.some.injEq] at hi
      subst hi
      simp only [List.set_cons_zero, List.map_cons, List.sum_cons]
      have := sum_map_le f g l hle
      omega
    | succ i =>
      simp only [List.getElem?_cons_succ] at hi
      simp only [List.set_cons_succ, List.map_cons, List.sum_cons]
      have := ih i hi
      have := hle x
      omega

theorem Pc.rank_mono (pc : Pc V E) (a b : Bool) (h : a = true → b = true) :
    pc.rank b ≤ pc.rank a := by
  cases pc <;> cases a <;> cases b <;> simp_all [Pc.rank]

/-- Every statement executed lowers the measure. -/
theorem step_measure {calls : List (Call V E)} {s t : State V E} {i : Nat}
    (hk : Wake calls s) (h : step i s = some t) : t.measure < s.measure := by
  obtain ⟨pc, pc2, hpc, hn, ht⟩ := step_eq_some h
  obtain ⟨_, _, _, _, _, l6, _, _, _, l10⟩ := next_wake hn
    (fun e => hk.wait i (e ▸ hpc)) (hk.set i pc hpc)
    (fun e hni => hk.parked i (e ▸ hpc) hni)
  unfold State.measure
  rw [ht]
  exact sum_set_lt _ _ _ i pc pc2 hpc l10 (fun x => Pc.rank_mono x _ _ l6)

theorem moves_le_measure {calls : List (Call V E)} (sched : List Nat) {s : State V E}
    (hs : Inv s) (hk : Wake calls s) : moves sched s ≤ s.measure := by
  induction sched generalizing s with
  | nil => exact Nat.zero_le _
  | cons i sched ih =>
    unfold moves
    cases h : step i s with
    | none => exact ih hs hk
    | some t =>
      have h1 := ih (step_inv hs h) (step_wake hs hk h)
      have h2 := step_measure hk h
      show moves sched t + 1 ≤ s.measure
      omega

theorem measure_init (calls : List (Call V E)) :
    (init calls).measure ≤ 9 * calls.length := by
  induction calls with
  | nil => simp [init, State.measure]
  | cons c calls ih =>
    have hc : (c.entry.rank false : Nat) ≤ 9 := by
      cases c <;> simp [Call.entry, Pc.rank]
    simp only [init, State.measure, NewPromise, List.map_cons, List.sum_cons,
      List.length_cons] at ih ⊢
    omega

theorem quiescent_iff (s : State V E) :
    s.quiescent = true ↔ ∀ i, step i s = none := by
  unfold State.quiescent
  rw [List.all_eq_true]
  constructor
  · intro h i
    rcases Nat.lt_or_ge i s.threads.length with hlt | hge
    · have := h i (List.mem_range.mpr hlt)
      cases hst : step i s with
      | none => rfl
      | some t => rw [hst] at this; cases this
    · unfold step
      rw [List.getElem?_eq_none hge]
  · intro h i _
    rw [h i]; rfl

theorem step_none_next {s : State V E} {i : Nat} {pc : Pc V E}
    (hpc : s.threads[i]? = some pc) (h : step i s = none) : next i pc s.sh = none := by
  unfold step at h
  simp only [hpc] at h
  cases hn : next i pc s.sh with
  | none => rfl
  | some r => simp [hn] at h

/-- A goroutine holding the mutex can always move. -/
theorem holds_enabled (i : Nat) (pc : Pc V E) (sh : Shared V E) (h : pc.holds = true) :
    next i pc sh ≠ none := by
  cases pc <;> simp_all [Pc.holds, next] <;> split <;> simp

/-- A goroutine between line 54 and the end of its `Broadcast` can always
move. -/
theorem announcing_enabled (i : Nat) (pc : Pc V E) (sh : Shared V E)
    (h : pc.announcing = true) : next i pc sh ≠ none := by
  cases pc <;> simp_all [Pc.announcing, next]

/-- With the mutex free, a goroutine that cannot move has returned or is
suspended in `Wait`. -/
theorem stuck_cases (i : Nat) (pc : Pc V E) (sh : Shared V E)
    (h : next i pc sh = none) (hl : sh.locked = false) :
    (pc = .getParked ∧ i ∈ sh.notify) ∨ (∃ v e, pc = .getDone v e) ∨ pc = .cDone := by
  cases pc <;> simp_all [next] <;> split at h <;> simp_all

/-- When nothing can move and some call was a resolution, every `Get` has
returned the stored pair. -/
theorem quiescent_all_returned {calls : List (Call V E)} {s : State V E}
    (hs : Inv s) (hk : Wake calls s) (hq : ∀ i, step i s = none)
    (hres : ∃ c ∈ calls, c ≠ Call.Get) :
    s.sh.p.isComplete = true ∧
    ∀ (i : Nat), calls[i]? = some .Get →
      s.threads[i]? = some (.getDone s.sh.p.v s.sh.p.err) := by
  have thread : ∀ (i : Nat) (c : Call V E), calls[i]? = some c →
      ∃ pc, s.threads[i]? = some pc ∧ pc.inGet = c.entry.inGet := by
    intro i c hc
    have hlt : i < s.threads.length := by
      rw [hk.length]
      rcases Nat.lt_or_ge i calls.length with hlt | hge
      · exact hlt
      · rw [List.getElem?_eq_none hge] at hc; cases hc
    exact ⟨_, List.getElem?_eq_getElem hlt,
      hk.kind i _ c (List.getElem?_eq_getElem hlt) hc⟩
  have hfree : s.sh.locked = false := by
    cases hl : s.sh.locked with
    | false => rfl
    | true =>
      obtain ⟨j, pcj, hj, hhj⟩ := hk.held hl
      exact absurd (step_none_next hj (hq j)) (holds_enabled j pcj s.sh hhj)
  have hflag : s.sh.p.isComplete = true := by
    obtain ⟨c, hc, hne⟩ := hres
    obtain ⟨j, hj⟩ := List.mem_iff_getElem?.mp hc
    obtain ⟨pc, hpc, hkind⟩ := thread j c hj
    have hng : pc.inGet = false := by
      rw [hkind]
      cases c with
      | Get => exact absurd rfl hne
      | Complete v => rfl
      | CompleteWithError e => rfl
    rcases stuck_cases j pc s.sh (step_none_next hpc (hq j)) hfree with
      ⟨rfl, _⟩ | ⟨v, e, rfl⟩ | rfl
    · cases hng
    · cases hng
    · exact hk.set j _ hpc rfl
  have hnil : s.sh.notify = [] := by
    rcases hk.woken hflag with ⟨j, pcj, hj, haj⟩ | hnil
    · exact absurd (step_none_next hj (hq j)) (announcing_enabled j pcj s.sh haj)
    · exact hnil
  refine ⟨hflag, ?_⟩
  intro i hi
  obtain ⟨pc, hpc, hkind⟩ := thread i _ hi
  rcases stuck_cases i pc s.sh (step_none_next hpc (hq i)) hfree with
    ⟨_, hmem⟩ | ⟨v, e, rfl⟩ | rfl
  · rw [hnil] at hmem; cases hmem
  · have := hs.seen i _ hpc
    simp only [Pc.obs] at this
    rw [hpc, this.2.1, this.2.2]
  · cases hkind

/-- Every state of a run has a continuation after which nothing can move. -/
theorem exists_quiescent (calls : List (Call V E)) (n : Nat) :
    ∀ (s : State V E), Inv s → Wake calls s → s.measure ≤ n →
      ∃ later : List Nat, ∀ i, step i (run later s) = none := by
  induction n with
  | zero =>
    intro s _ hk hm
    refine ⟨[], ?_⟩
    intro i
    cases h : step i s with
    | none => exact h
    | some t =>
      have := step_measure hk h
      omega
  | succ n ih =>
    intro s hs hk hm
    by_cases hq : ∀ i, step i s = none
    · exact ⟨[], hq⟩
    · obtain ⟨i, hi⟩ := not_forall.mp hq
      cases h : step i s with
      | none => exact absurd h hi
      | some t =>
        have hlt := step_measure hk h
        obtain ⟨later, hl⟩ := ih t (step_inv hs h) (step_wake hs hk h) (by omega)
        refine ⟨i :: later, ?_⟩
        rw [run_cons, h]
        exact hl

/-! ### Claim about waking the readers -/

/-- C12: wake-all liveness.  In every run of any calls on a fresh promise,
under any schedule: once the flag is set and no goroutine stands between
line 54 and the end of its `Broadcast`, that is, once the resolving call has
returned, nobody is suspended in `Wait` any more and every reader still
inside `Wait` can move; at most `9` statements per call are ever executed;
whenever nothing can move and some call was a resolution, every `Get` has
returned the stored pair; and every state of the run has a continuation after
which every `Get` has returned the stored pair. -/
theorem C12_wake_all (calls : List (Call V E)) (sched : List Nat) :
    ((run sched (init calls)).sh.p.isComplete = true →
      (∀ pc ∈ (run sched (init calls)).threads, pc.announcing = false) →
      (run sched (init calls)).sh.notify = [] ∧
      ∀ (i : Nat), (run sched (init calls)).threads[i]? = some .getParked →
        ∃ t, step i (run sched (init calls)) = some t ∧ t.threads[i]? = some .getRelock) ∧
    moves sched (init calls) ≤ 9 * calls.length ∧
    ((∃ c ∈ calls, c ≠ Call.Get) → (run sched (init calls)).quiescent = true →
      (run sched (init calls)).sh.p.isComplete = true ∧
      ∀ (i : Nat), calls[i]? = some .Get →
        (run sched (init calls)).threads[i]?
          = some (.getDone (run sched (init calls)).sh.p.v
              (run sched (init calls)).sh.p.err)) ∧
    ((∃ c ∈ calls, c ≠ Call.Get) →
      ∃ later : List Nat,
        (run later (run sched (init calls))).sh.p.isComplete = true ∧
        ∀ (i : Nat), calls[i]? = some .Get →
          (run later (run sched (init calls))).threads[i]?
            = some (.getDone (run later (run sched (init calls))).sh.p.v
                (run later (run sched (init calls))).sh.p.err)) := by
  have hs := run_inv sched (init_inv calls)
  have hk : Wake calls (run sched (init calls)) := run_wake sched (init_inv calls)
    (init_wake calls)
  refine ⟨?_, ?_, ?_, ?_⟩
  · intro hflag hno
    have hnil : (run sched (init calls)).sh.notify = [] := by
      rcases hk.woken hflag with ⟨j, pcj, hj, haj⟩ | hnil
      · have hmem : pcj ∈ (run sched (init calls)).threads :=
          List.mem_iff_getElem?.mpr ⟨j, hj⟩
        rw [hno pcj hmem] at haj
        cases haj
      · exact hnil
    refine ⟨hnil, ?_⟩
    intro i hi
    refine ⟨State.mk (run sched (init calls)).sh
      ((run sched (init calls)).threads.set i .getRelock), ?_,
      getElem?_set_at _ i _ .getRelock hi⟩
    simp [step, hi, next, hnil]
  · exact (moves_le_measure sched (init_inv calls) (init_wake calls)).trans
      (measure_init calls)
  · intro hres hq
    exact quiescent_all_returned hs hk ((quiescent_iff _).mp hq) hres
  · intro hres
    obtain ⟨later, hl⟩ := exists_quiescent calls _ _ hs hk (Nat.le_refl _)
    exact ⟨later, quiescent_all_returned (run_inv later hs) (run_wake later hs hk) hl hres⟩

theorem C12_wake_all_witness :
    ((run [0, 0, 0, 1, 1, 1, 2, 2, 2, 3, 3, 3, 3, 3, 3, 3]
      (init [.Get, .Get, .Get, .Complete (some 4)] : State Nat Nat)).sh.p.isComplete = true ∧
    (∀ pc ∈ (run [0, 0, 0, 1, 1, 1, 2, 2, 2, 3, 3, 3, 3, 3, 3, 3]
      (init [.Get, .Get, .Get, .Complete (some 4)] : State Nat Nat)).threads,
        pc.announcing = false) ∧
    (run [0, 0, 0, 1, 1, 1, 2, 2, 2, 3, 3, 3, 3, 3, 3, 3]
      (init [.Get, .Get, .Get, .Complete (some 4)] : State Nat Nat)).threads[1]?
        = some .getParked) ∧
    (run [0, 0, 0, 1, 1, 1, 2, 2, 2, 3, 3, 3, 3, 3, 3, 3]
      (init [.Get, .Get, .Get, .Complete (some 4)] : State Nat Nat)).sh.notify = [] :=
  ⟨⟨by decide, by decide, by decide⟩,
    ((C12_wake_all [.Get, .Get, .Get, .Complete (some 4)]
      [0, 0, 0, 1, 1, 1, 2, 2, 2, 3, 3, 3, 3, 3, 3, 3]).1 (by decide) (by decide)).1⟩

end PromiseGo
